import Mathlib

/-!
Verification of the "peanut" personal knowledge ingestion and hybrid-search
engine. Each Python function relevant to the verified properties is embedded
shallowly as a computable Lean definition over explicit state:

* `src/ingest/chunker.py`     — `chunk_text`, `MAX_CHUNK_CHARS`
* `src/shared/rrf.py`         — `rrf_merge`, `rrf_scores`, `weighted_merge`
* `src/ingest/embedding_worker.py` — the failure-handling path of one
  worker iteration (`_increment_retries`, `_apply_retry_updates`)
* `src/ingest/outbox_worker.py` — processing of one picked outbox row
* `src/ingest/watcher.py`     — the pause-gate dispatch loop
* `src/ingest/db.py` + `src/ingest/main.py` — `ingest_document` and the
  keyword arguments its caller passes
* `src/api/entities.py`       — `merge_entities`, `hard_delete`
* `src/shared/reranker.py` + `src/api/search.py` — `rerank` and the
  post-cache body of `search`

Python strings are modelled as `List Char`, Python `float` as `ℚ` (the
floating-point operations relied on by the verified properties — comparisons
of identical expressions, two-term additions, exact min-max bounds and the
`rng == 0` guard — behave identically on IEEE doubles and on `ℚ`), Python
dicts as an insertion-ordered key list plus a valuation function, and
database tables as lists of row records.
-/

namespace Peanut

/-! ### Python string primitives -/

/-- Characters treated as whitespace by Python's `str.strip()`, `str.split()`
and the regex class `\s` (ASCII range; the repository's inputs are ASCII). -/
def pyIsSpace (c : Char) : Bool :=
  c == ' ' || c == '\t' || c == '\n' || c == '\r' || c == '\x0b' || c == '\x0c'

/-- Python `text.strip()`: remove leading and trailing whitespace. -/
def pyStrip (s : List Char) : List Char :=
  ((s.dropWhile pyIsSpace).reverse.dropWhile pyIsSpace).reverse

/-- Helper for `pySplitWs`: accumulate the current word (reversed) while
scanning. -/
def pySplitWsAux : List Char → List Char → List (List Char)
  | [], acc => if acc = [] then [] else [acc.reverse]
  | c :: cs, acc =>
    if pyIsSpace c then
      if acc = [] then pySplitWsAux cs [] else acc.reverse :: pySplitWsAux cs []
    else pySplitWsAux cs (c :: acc)

/-- Python `s.split()` with no separator: split on whitespace runs, dropping
empty strings. -/
def pySplitWs (s : List Char) : List (List Char) := pySplitWsAux s []

/-- Sentence terminators of the chunker's split regex: `.`, `!`, `?`. -/
def isTerm (c : Char) : Bool := c == '.' || c == '!' || c == '?'

/-- Whether the last character consumed into the current sentence (head of the
reversed accumulator) is a sentence terminator. -/
def headIsTerm : List Char → Bool
  | [] => false
  | c :: _ => isTerm c

/-- Helper for `splitSentences`. First argument: are we inside the whitespace
run of a split point (the regex consumes `\s+` maximally)? Second: remaining
input. Third: current sentence accumulated in reverse. -/
def splitSentencesAux : Bool → List Char → List Char → List (List Char)
  | _, [], acc => if acc = [] then [] else [acc.reverse]
  | true, c :: cs, acc =>
    if pyIsSpace c then splitSentencesAux true cs acc
    else splitSentencesAux false cs (c :: acc)
  | false, c :: cs, acc =>
    if pyIsSpace c && headIsTerm acc then
      acc.reverse :: splitSentencesAux true cs []
    else splitSentencesAux false cs (c :: acc)

/-- Python `re.split` with pattern `(?<=[.!?])\s+`: split after a sentence
terminator followed by whitespace, consuming the whole whitespace run. -/
def splitSentences (s : List Char) : List (List Char) := splitSentencesAux false s []

/-- Python `" ".join(parts)`. -/
def joinSp : List (List Char) → List Char
  | [] => []
  | [w] => w
  | w :: ws => w ++ ' ' :: joinSp ws

/-- Length of `" ".join(parts)`. -/
def joinLen (l : List (List Char)) : Nat := (joinSp l).length

/-! ### Chunker (`src/ingest/chunker.py`) -/

/-- Hard character ceiling for a chunk (chunker.py line 24). -/
def MAX_CHUNK_CHARS : Nat := 2000

/-- A chunk as produced by `chunk_text`: `Chunk(index, text, char_count)`. -/
structure Chunk where
  index : Nat
  text : List Char
  char_count : Nat
deriving DecidableEq, Repr

/-- Accumulator state of the sentence loop in `chunk_text`: emitted chunks,
the list of strings Python keeps in `current`, the tracked `current_chars`
counter, and the running `chunk_idx`. -/
structure ChunkSt where
  chunks : List Chunk
  current : List (List Char)
  current_chars : Nat
  chunk_idx : Nat
deriving DecidableEq, Repr

/-- The overlap-seeding loop of `chunk_text` (lines 106-113): walk the
reversed word list of the flushed chunk, prepending words while the joined
length stays within `overlap`; stop at the first word that would exceed it. -/
def seedOverlapAux (overlap : Nat) : List (List Char) → List (List Char) → Nat →
    List (List Char) × Nat
  | [], acc, chars => (acc, chars)
  | w :: ws, acc, chars =>
    let added := w.length + (if acc = [] then 0 else 1)
    if overlap < chars + added then (acc, chars)
    else seedOverlapAux overlap ws (w :: acc) (chars + added)

/-- The hard-split word loop of `chunk_text` (lines 80-92): greedily pack
words of an oversized sentence into chunks bounded by `MAX_CHUNK_CHARS`.
The state's `current`/`current_chars` fields play the role of the Python
variables `buf`/`buf_chars`. Note that after a flush the code adds the
`added` computed against the pre-flush buffer, so `buf_chars` can overcount
the joined length by one. -/
def hardSplitWords : List (List Char) → ChunkSt → ChunkSt
  | [], st => st
  | w :: ws, st =>
    let added := w.length + (if st.current = [] then 0 else 1)
    if MAX_CHUNK_CHARS < st.current_chars + added ∧ st.current ≠ [] then
      let cs := joinSp st.current
      hardSplitWords ws
        ⟨st.chunks ++ [⟨st.chunk_idx, cs, cs.length⟩], [w], added, st.chunk_idx + 1⟩
    else
      hardSplitWords ws ⟨st.chunks, st.current ++ [w], st.current_chars + added, st.chunk_idx⟩

/-- One iteration of the sentence loop of `chunk_text` (lines 67-118). -/
def chunkStep (target overlap : Nat) (st : ChunkSt) (s : List Char) : ChunkSt :=
  if MAX_CHUNK_CHARS < s.length then
    -- hard-split branch: flush the accumulator, then split on word boundaries
    let st1 : ChunkSt :=
      if st.current = [] then st
      else
        let cs := joinSp st.current
        ⟨st.chunks ++ [⟨st.chunk_idx, cs, cs.length⟩], [], 0, st.chunk_idx + 1⟩
    let r := hardSplitWords (pySplitWs s) ⟨st1.chunks, [], 0, st1.chunk_idx⟩
    -- Python only assigns `current = buf` when the remainder is nonempty
    if r.current = [] then ⟨r.chunks, st1.current, st1.current_chars, r.chunk_idx⟩ else r
  else
    -- normal accumulation path
    let st1 : ChunkSt :=
      if target < st.current_chars + s.length + 1 ∧ st.current ≠ [] then
        let cs := joinSp st.current
        let seed := seedOverlapAux overlap (pySplitWs cs).reverse [] 0
        ⟨st.chunks ++ [⟨st.chunk_idx, cs, cs.length⟩], seed.1, seed.2, st.chunk_idx + 1⟩
      else st
    let cur2 := st1.current ++ [s]
    ⟨st1.chunks, cur2,
      st1.current_chars + s.length + (if 1 < cur2.length then 1 else 0),
      st1.chunk_idx⟩

/-- `chunk_text(text, chunk_size, chunk_overlap)` from `src/ingest/chunker.py`
(Python defaults: `chunk_size=1800`, `overlap=200`). -/
def chunk_text (text : List Char) (chunk_size overlap : Nat) : List Chunk :=
  if pyStrip text = [] then []
  else
    let target := min chunk_size MAX_CHUNK_CHARS
    let sentences := splitSentences (pyStrip text)
    let st := sentences.foldl (chunkStep target overlap) ⟨[], [], 0, 0⟩
    if st.current = [] then st.chunks
    else st.chunks ++ [⟨st.chunk_idx, joinSp st.current, (joinSp st.current).length⟩]

/-! ### Join-length lemmas -/

theorem joinSp_cons_of_ne (w : List Char) {ws : List (List Char)} (h : ws ≠ []) :
    joinSp (w :: ws) = w ++ ' ' :: joinSp ws := by
  cases ws with
  | nil => exact absurd rfl h
  | cons x xs => rfl

theorem joinLen_nil : joinLen ([] : List (List Char)) = 0 := rfl

theorem joinLen_singleton (w : List Char) : joinLen [w] = w.length := rfl

theorem joinLen_cons (w : List Char) (ws : List (List Char)) :
    joinLen (w :: ws) = w.length + (if ws = [] then 0 else 1) + joinLen ws := by
  cases ws with
  | nil => simp [joinLen, joinSp]
  | cons x xs =>
    simp only [joinLen, joinSp_cons_of_ne w (List.cons_ne_nil x xs), List.length_append,
      List.length_cons]
    simp
    omega

theorem joinLen_append_singleton (ws : List (List Char)) (s : List Char) :
    joinLen (ws ++ [s]) = joinLen ws + s.length + (if ws = [] then 0 else 1) := by
  induction ws with
  | nil => simp [joinLen_singleton, joinLen_nil]
  | cons w ws ih =>
    rw [List.cons_append, joinLen_cons w (ws ++ [s]), joinLen_cons w ws, ih]
    by_cases hws : ws = [] <;> simp [hws, List.append_eq_nil] <;> omega

/-! ### Loop invariants for `chunk_text` -/

/-- Invariant tying Python's `current_chars` counter to the joined length of
`current`, with an upper bound `M` on the joined length. The counter can
overcount by one after a hard-split flush. -/
def curOk (M : Nat) (st : ChunkSt) : Prop :=
  joinLen st.current ≤ st.current_chars ∧ st.current_chars ≤ joinLen st.current + 1 ∧
  joinLen st.current ≤ M ∧ (st.current = [] → st.current_chars = 0)

/-- All emitted chunks respect the character bound `B`. -/
def chunksOk (B : Nat) (st : ChunkSt) : Prop := ∀ ch ∈ st.chunks, ch.char_count ≤ B

/-- Emitted chunk indices are exactly `0, 1, …, chunk_idx - 1` in order. -/
def idxOk (st : ChunkSt) : Prop := st.chunks.map Chunk.index = List.range st.chunk_idx

theorem curOk_mono {M M' : Nat} (h : M ≤ M') {st : ChunkSt} (hst : curOk M st) :
    curOk M' st :=
  ⟨hst.1, hst.2.1, le_trans hst.2.2.1 h, hst.2.2.2⟩

theorem seedOverlapAux_spec (ov : Nat) (ws : List (List Char)) :
    ∀ acc chars, chars = joinLen acc → chars ≤ ov →
      (seedOverlapAux ov ws acc chars).2 = joinLen (seedOverlapAux ov ws acc chars).1 ∧
      (seedOverlapAux ov ws acc chars).2 ≤ ov := by
  induction ws with
  | nil => intro acc chars h1 h2; exact ⟨h1, h2⟩
  | cons w ws ih =>
    intro acc chars h1 h2
    by_cases hc : ov < chars + (w.length + if acc = [] then 0 else 1)
    · simp only [seedOverlapAux, if_pos hc]
      exact ⟨h1, h2⟩
    · simp only [seedOverlapAux, if_neg hc]
      apply ih
      · rw [joinLen_cons w acc, h1]
        omega
      · omega

theorem hardSplitWords_curOk {B : Nat} (hB : MAX_CHUNK_CHARS ≤ B)
    (words : List (List Char)) :
    ∀ st, (∀ w ∈ words, w.length ≤ MAX_CHUNK_CHARS) →
      chunksOk B st → curOk MAX_CHUNK_CHARS st →
      chunksOk B (hardSplitWords words st) ∧ curOk MAX_CHUNK_CHARS (hardSplitWords words st) := by
  induction words with
  | nil => intro st _ h1 h2; exact ⟨h1, h2⟩
  | cons w ws ih =>
    intro st hw h1 h2
    have hwlen : w.length ≤ MAX_CHUNK_CHARS := hw w (List.mem_cons_self w ws)
    have hws : ∀ w' ∈ ws, w'.length ≤ MAX_CHUNK_CHARS :=
      fun w' hw' => hw w' (List.mem_cons_of_mem w hw')
    by_cases hc : MAX_CHUNK_CHARS < st.current_chars + (w.length + if st.current = [] then 0 else 1)
        ∧ st.current ≠ []
    · simp only [hardSplitWords, if_pos hc]
      apply ih _ hws
      · intro ch hch
        rcases List.mem_append.1 hch with h | h
        · exact h1 ch h
        · rcases List.mem_singleton.1 h with rfl
          exact le_trans h2.2.2.1 hB
      · refine ⟨?_, ?_, ?_, ?_⟩
        · simp [joinLen_singleton, if_neg hc.2]
        · simp [joinLen_singleton, if_neg hc.2]
        · simp [joinLen_singleton]
          exact hwlen
        · intro h; simp at h
    · simp only [hardSplitWords, if_neg hc]
      apply ih _ hws
      · exact h1
      · rcases h2 with ⟨i1, i2, i3, i4⟩
        by_cases hcur : st.current = []
        · have hchars : st.current_chars = 0 := i4 hcur
          refine ⟨?_, ?_, ?_, ?_⟩
          · simp [hcur, joinLen_singleton, hchars]
          · simp [hcur, joinLen_singleton, hchars]
          · simp [hcur, joinLen_singleton]
            exact hwlen
          · intro h; simp at h
        · have hle : st.current_chars + (w.length + 1) ≤ MAX_CHUNK_CHARS := by
            rcases not_and_or.1 hc with h | h
            · have := Nat.le_of_not_lt h
              simpa [if_neg hcur] using this
            · exact absurd hcur h
          refine ⟨?_, ?_, ?_, ?_⟩
          · simp only [joinLen_append_singleton, if_neg hcur]; omega
          · simp only [joinLen_append_singleton, if_neg hcur]; omega
          · simp only [joinLen_append_singleton, if_neg hcur]; omega
          · intro h; simp [List.append_eq_nil] at h

theorem hardSplitWords_idxOk (words : List (List Char)) :
    ∀ st, idxOk st → idxOk (hardSplitWords words st) := by
  induction words with
  | nil => intro st h; exact h
  | cons w ws ih =>
    intro st h
    by_cases hc : MAX_CHUNK_CHARS < st.current_chars + (w.length + if st.current = [] then 0 else 1)
        ∧ st.current ≠ []
    · simp only [hardSplitWords, if_pos hc]
      apply ih
      unfold idxOk at h ⊢
      simp only [List.map_append, List.map_cons, List.map_nil, h, List.range_succ]
    · simp only [hardSplitWords, if_neg hc]
      exact ih _ h

theorem chunkStep_spec {target ov B : Nat} (ht : target ≤ MAX_CHUNK_CHARS)
    (hB : B = MAX_CHUNK_CHARS + ov + 1) (st : ChunkSt) (s : List Char)
    (hw : ∀ w ∈ pySplitWs s, w.length ≤ MAX_CHUNK_CHARS)
    (h1 : chunksOk B st) (h2 : curOk B st) :
    chunksOk B (chunkStep target ov st s) ∧ curOk B (chunkStep target ov st s) := by
  have hMB : MAX_CHUNK_CHARS ≤ B := by omega
  by_cases hbig : MAX_CHUNK_CHARS < s.length
  · -- hard-split branch
    simp only [chunkStep, if_pos hbig]
    by_cases hcur : st.current = []
    · simp only [if_pos hcur]
      have hinner := hardSplitWords_curOk hMB (pySplitWs s)
        ⟨st.chunks, [], 0, st.chunk_idx⟩ hw h1
        ⟨by simp [joinLen_nil], by simp [joinLen_nil], by simp [joinLen_nil], fun _ => rfl⟩
      rcases hinner with ⟨hc1, hc2⟩
      by_cases hr : (hardSplitWords (pySplitWs s) ⟨st.chunks, [], 0, st.chunk_idx⟩).current = []
      · simp only [if_pos hr]
        refine ⟨hc1, ?_⟩
        have h0 : st.current_chars = 0 := h2.2.2.2 hcur
        exact ⟨by simp [hcur, joinLen_nil, h0], by simp [hcur, joinLen_nil, h0],
          by simp [hcur, joinLen_nil], fun _ => h0⟩
      · simp only [if_neg hr]
        exact ⟨hc1, curOk_mono hMB hc2⟩
    · simp only [if_neg hcur]
      have hflush : chunksOk B
          (⟨st.chunks ++ [⟨st.chunk_idx, joinSp st.current, (joinSp st.current).length⟩],
            [], 0, st.chunk_idx + 1⟩ : ChunkSt) := by
        intro ch hch
        rcases List.mem_append.1 hch with h | h
        · exact h1 ch h
        · rcases List.mem_singleton.1 h with rfl
          exact h2.2.2.1
      have hinner := hardSplitWords_curOk hMB (pySplitWs s)
        ⟨st.chunks ++ [⟨st.chunk_idx, joinSp st.current, (joinSp st.current).length⟩],
          [], 0, st.chunk_idx + 1⟩ hw hflush
        ⟨by simp [joinLen_nil], by simp [joinLen_nil], by simp [joinLen_nil], fun _ => rfl⟩
      rcases hinner with ⟨hc1, hc2⟩
      by_cases hr : (hardSplitWords (pySplitWs s)
          ⟨st.chunks ++ [⟨st.chunk_idx, joinSp st.current, (joinSp st.current).length⟩],
            [], 0, st.chunk_idx + 1⟩).current = []
      · simp only [if_pos hr]
        exact ⟨hc1, ⟨by simp [joinLen_nil], by simp [joinLen_nil], by simp [joinLen_nil],
          fun _ => rfl⟩⟩
      · simp only [if_neg hr]
        exact ⟨hc1, curOk_mono hMB hc2⟩
  · -- normal accumulation path
    simp only [chunkStep, if_neg hbig]
    have hslen : s.length ≤ MAX_CHUNK_CHARS := Nat.le_of_not_lt hbig
    by_cases hfl : target < st.current_chars + s.length + 1 ∧ st.current ≠ []
    · simp only [if_pos hfl]
      have hseed := seedOverlapAux_spec ov (pySplitWs (joinSp st.current)).reverse [] 0
        (by simp [joinLen_nil]) (Nat.zero_le ov)
      set seed := seedOverlapAux ov (pySplitWs (joinSp st.current)).reverse [] 0 with hseeddef
      constructor
      · intro ch hch
        rcases List.mem_append.1 hch with h | h
        · exact h1 ch h
        · rcases List.mem_singleton.1 h with rfl
          exact h2.2.2.1
      · by_cases hse : seed.1 = []
        · have h0 : seed.2 = 0 := by rw [hseed.1, hse, joinLen_nil]
          refine ⟨?_, ?_, ?_, ?_⟩
          · simp [hse, h0, joinLen_singleton]
          · simp [hse, h0, joinLen_singleton]
          · simp [hse, joinLen_singleton]; omega
          · intro h; simp [List.append_eq_nil] at h
        · have hlen1 : 1 < (seed.1 ++ [s]).length := by
            obtain ⟨a, l, hl⟩ := List.exists_cons_of_ne_nil hse
            simp [hl]
          refine ⟨?_, ?_, ?_, ?_⟩
          · simp only [joinLen_append_singleton, if_neg hse, if_pos hlen1, hseed.1]
            omega
          · simp only [joinLen_append_singleton, if_neg hse, if_pos hlen1, hseed.1]
            omega
          · simp only [joinLen_append_singleton, if_neg hse]
            have := hseed.1
            have := hseed.2
            omega
          · intro h; simp [List.append_eq_nil] at h
    · simp only [if_neg hfl]
      refine ⟨h1, ?_⟩
      by_cases hcur : st.current = []
      · have h0 : st.current_chars = 0 := h2.2.2.2 hcur
        have hlen1 : ¬ 1 < (st.current ++ [s]).length := by simp [hcur]
        refine ⟨?_, ?_, ?_, ?_⟩
        · simp [hcur, h0, joinLen_singleton, if_neg hlen1]
        · simp [hcur, h0, joinLen_singleton, if_neg hlen1]
        · simp [hcur, joinLen_singleton]; omega
        · intro h; simp [List.append_eq_nil] at h
      · have hle : st.current_chars + s.length + 1 ≤ target := by
          rcases not_and_or.1 hfl with h | h
          · exact Nat.le_of_not_lt h
          · exact absurd hcur h
        have hlen1 : 1 < (st.current ++ [s]).length := by
          obtain ⟨a, l, hl⟩ := List.exists_cons_of_ne_nil hcur
          simp [hl]
        rcases h2 with ⟨i1, i2, i3, i4⟩
        refine ⟨?_, ?_, ?_, ?_⟩
        · simp only [joinLen_append_singleton, if_neg hcur, if_pos hlen1]
          omega
        · simp only [joinLen_append_singleton, if_neg hcur, if_pos hlen1]
          omega
        · simp only [joinLen_append_singleton, if_neg hcur]
          omega
        · intro h; simp [List.append_eq_nil] at h

theorem chunkStep_idxOk (target ov : Nat) (st : ChunkSt) (s : List Char)
    (h : idxOk st) : idxOk (chunkStep target ov st s) := by
  by_cases hbig : MAX_CHUNK_CHARS < s.length
  · simp only [chunkStep, if_pos hbig]
    by_cases hcur : st.current = []
    · simp only [if_pos hcur]
      have hinner := hardSplitWords_idxOk (pySplitWs s) ⟨st.chunks, [], 0, st.chunk_idx⟩ h
      by_cases hr : (hardSplitWords (pySplitWs s) ⟨st.chunks, [], 0, st.chunk_idx⟩).current = []
      · simpa only [if_pos hr] using hinner
      · simpa only [if_neg hr] using hinner
    · simp only [if_neg hcur]
      have hflushed : idxOk
          (⟨st.chunks ++ [⟨st.chunk_idx, joinSp st.current, (joinSp st.current).length⟩],
            [], 0, st.chunk_idx + 1⟩ : ChunkSt) := by
        unfold idxOk at h ⊢
        simp only [List.map_append, List.map_cons, List.map_nil, h, List.range_succ]
      have hinner := hardSplitWords_idxOk (pySplitWs s) _ hflushed
      by_cases hr : (hardSplitWords (pySplitWs s)
          ⟨st.chunks ++ [⟨st.chunk_idx, joinSp st.current, (joinSp st.current).length⟩],
            [], 0, st.chunk_idx + 1⟩).current = []
      · simpa only [if_pos hr] using hinner
      · simpa only [if_neg hr] using hinner
  · simp only [chunkStep, if_neg hbig]
    by_cases hfl : target < st.current_chars + s.length + 1 ∧ st.current ≠ []
    · simp only [if_pos hfl]
      unfold idxOk at h ⊢
      simp only [List.map_append, List.map_cons, List.map_nil, h, List.range_succ]
    · simp only [if_neg hfl]
      exact h

theorem chunkFold_spec {target ov B : Nat} (ht : target ≤ MAX_CHUNK_CHARS)
    (hB : B = MAX_CHUNK_CHARS + ov + 1) (sentences : List (List Char)) :
    ∀ st, (∀ s ∈ sentences, ∀ w ∈ pySplitWs s, w.length ≤ MAX_CHUNK_CHARS) →
      chunksOk B st → curOk B st →
      chunksOk B (sentences.foldl (chunkStep target ov) st) ∧
      curOk B (sentences.foldl (chunkStep target ov) st) := by
  induction sentences with
  | nil => intro st _ h1 h2; exact ⟨h1, h2⟩
  | cons s ss ih =>
    intro st hw h1 h2
    have hstep := chunkStep_spec ht hB st s (hw s (List.mem_cons_self s ss)) h1 h2
    exact ih _ (fun s' hs' => hw s' (List.mem_cons_of_mem s hs')) hstep.1 hstep.2

theorem chunkFold_idxOk (target ov : Nat) (sentences : List (List Char)) :
    ∀ st, idxOk st → idxOk (sentences.foldl (chunkStep target ov) st) := by
  induction sentences with
  | nil => intro st h; exact h
  | cons s ss ih => intro st h; exact ih _ (chunkStep_idxOk target ov st s h)

/-! ### Symbolic evaluation on whitespace-free inputs -/

theorem dropWhile_pyIsSpace_of_nospace {l : List Char}
    (h : ∀ c ∈ l, pyIsSpace c = false) : l.dropWhile pyIsSpace = l := by
  cases l with
  | nil => rfl
  | cons c cs =>
    rw [List.dropWhile_cons, h c (List.mem_cons_self c cs)]
    simp

theorem pyStrip_of_nospace {l : List Char} (h : ∀ c ∈ l, pyIsSpace c = false) :
    pyStrip l = l := by
  unfold pyStrip
  rw [dropWhile_pyIsSpace_of_nospace h,
    dropWhile_pyIsSpace_of_nospace (fun c hc => h c (List.mem_reverse.1 hc)),
    List.reverse_reverse]

theorem splitSentencesAux_nospace :
    ∀ (l : List Char), (∀ c ∈ l, pyIsSpace c = false) →
    ∀ acc, splitSentencesAux false l acc =
      (if acc.reverse ++ l = [] then [] else [acc.reverse ++ l]) := by
  intro l
  induction l with
  | nil =>
    intro _ acc
    cases acc with
    | nil => rfl
    | cons a as => simp [splitSentencesAux]
  | cons c cs ih =>
    intro h acc
    have hc : pyIsSpace c = false := h c (List.mem_cons_self c cs)
    have hrec := ih (fun c' hc' => h c' (List.mem_cons_of_mem c hc')) (c :: acc)
    simp only [splitSentencesAux, hc, Bool.false_and, Bool.false_eq_true, if_false, hrec,
      List.reverse_cons, List.append_assoc, List.singleton_append]

theorem splitSentences_of_nospace {l : List Char}
    (h : ∀ c ∈ l, pyIsSpace c = false) (hne : l ≠ []) : splitSentences l = [l] := by
  unfold splitSentences
  rw [splitSentencesAux_nospace l h []]
  simp [hne]

theorem pySplitWsAux_nospace :
    ∀ (l : List Char), (∀ c ∈ l, pyIsSpace c = false) →
    ∀ acc, pySplitWsAux l acc = (if acc.reverse ++ l = [] then [] else [acc.reverse ++ l]) := by
  intro l
  induction l with
  | nil =>
    intro _ acc
    cases acc with
    | nil => rfl
    | cons a as => simp [pySplitWsAux]
  | cons c cs ih =>
    intro h acc
    have hc : pyIsSpace c = false := h c (List.mem_cons_self c cs)
    have hrec := ih (fun c' hc' => h c' (List.mem_cons_of_mem c hc')) (c :: acc)
    simp only [pySplitWsAux, hc, Bool.false_eq_true, if_false, hrec, List.reverse_cons,
      List.append_assoc, List.singleton_append]

theorem pySplitWs_of_nospace {l : List Char}
    (h : ∀ c ∈ l, pyIsSpace c = false) (hne : l ≠ []) : pySplitWs l = [l] := by
  unfold pySplitWs
  rw [pySplitWsAux_nospace l h []]
  simp [hne]

theorem replicate_a_nospace (n : Nat) :
    ∀ c ∈ List.replicate n 'a', pyIsSpace c = false := by
  intro c hc
  rw [List.eq_of_mem_replicate hc]
  rfl

/-- Evaluation of `chunk_text` on a single whitespace-free word that exceeds
the hard ceiling: the whole word is emitted as one chunk whose `char_count`
is the full word length. -/
theorem chunk_text_single_long_word {n : Nat} (hn : MAX_CHUNK_CHARS < n)
    (chunk_size overlap : Nat) :
    chunk_text (List.replicate n 'a') chunk_size overlap =
      [⟨0, List.replicate n 'a', n⟩] := by
  have hne : List.replicate n 'a' ≠ [] := by
    have : 0 < n := by omega
    simp [List.replicate, this]
    omega
  have hno := replicate_a_nospace n
  have hlen : (List.replicate n 'a').length = n := List.length_replicate n 'a'
  have hhsw : hardSplitWords [List.replicate n 'a'] (⟨[], [], 0, 0⟩ : ChunkSt) =
      ⟨[], [List.replicate n 'a'], n, 0⟩ := by
    unfold hardSplitWords
    rw [if_neg (by simp)]
    unfold hardSplitWords
    simp [hlen]
  have hstep : chunkStep (min chunk_size MAX_CHUNK_CHARS) overlap
      (⟨[], [], 0, 0⟩ : ChunkSt) (List.replicate n 'a') = ⟨[], [List.replicate n 'a'], n, 0⟩ := by
    unfold chunkStep
    rw [if_pos (by rw [hlen]; exact hn), pySplitWs_of_nospace hno hne]
    simp [hhsw, hne]
  unfold chunk_text
  rw [pyStrip_of_nospace hno, if_neg hne, splitSentences_of_nospace hno hne]
  simp only [List.foldl_cons, List.foldl_nil, hstep]
  rw [if_neg (by simp [hne])]
  simp [joinSp, hlen]

theorem chunk_text_eq (text : List Char) (chunk_size overlap : Nat)
    (h : pyStrip text ≠ []) :
    chunk_text text chunk_size overlap =
      (if ((splitSentences (pyStrip text)).foldl
            (chunkStep (min chunk_size MAX_CHUNK_CHARS) overlap) ⟨[], [], 0, 0⟩).current = []
       then ((splitSentences (pyStrip text)).foldl
            (chunkStep (min chunk_size MAX_CHUNK_CHARS) overlap) ⟨[], [], 0, 0⟩).chunks
       else ((splitSentences (pyStrip text)).foldl
            (chunkStep (min chunk_size MAX_CHUNK_CHARS) overlap) ⟨[], [], 0, 0⟩).chunks ++
         [⟨((splitSentences (pyStrip text)).foldl
              (chunkStep (min chunk_size MAX_CHUNK_CHARS) overlap) ⟨[], [], 0, 0⟩).chunk_idx,
           joinSp ((splitSentences (pyStrip text)).foldl
              (chunkStep (min chunk_size MAX_CHUNK_CHARS) overlap) ⟨[], [], 0, 0⟩).current,
           (joinSp ((splitSentences (pyStrip text)).foldl
              (chunkStep (min chunk_size MAX_CHUNK_CHARS) overlap) ⟨[], [], 0, 0⟩).current).length⟩]) := by
  simp only [chunk_text, if_neg h]

/-- C7 (amended): `chunk_text` yields chunks with indices exactly `0..n-1` in
order, and empty or whitespace-only input yields an empty list; provided every
whitespace-delimited word of every sentence of the input is at most
`MAX_CHUNK_CHARS` characters, every chunk's `char_count` is at most
`MAX_CHUNK_CHARS + overlap + 1`. (The stated bound `char_count ≤
MAX_CHUNK_CHARS` of the original claim is refuted by
`chunk_text_ceiling_counterexample`.) -/
theorem chunk_text_bounds (text : List Char) (chunk_size overlap : Nat) :
    ((∀ s ∈ splitSentences (pyStrip text), ∀ w ∈ pySplitWs s, w.length ≤ MAX_CHUNK_CHARS) →
      ∀ ch ∈ chunk_text text chunk_size overlap,
        ch.char_count ≤ MAX_CHUNK_CHARS + overlap + 1) ∧
    (chunk_text text chunk_size overlap).map Chunk.index =
      List.range (chunk_text text chunk_size overlap).length ∧
    (pyStrip text = [] → chunk_text text chunk_size overlap = []) := by
  by_cases hstrip : pyStrip text = []
  · refine ⟨?_, ?_, fun _ => by simp only [chunk_text, if_pos hstrip]⟩
    · intro _ ch hch
      simp only [chunk_text, if_pos hstrip] at hch
      exact absurd hch (List.not_mem_nil ch)
    · simp only [chunk_text, if_pos hstrip, List.map_nil, List.length_nil, List.range_zero]
  · have hinit : curOk (MAX_CHUNK_CHARS + overlap + 1) (⟨[], [], 0, 0⟩ : ChunkSt) :=
      ⟨by simp [joinLen_nil], by simp [joinLen_nil], by simp [joinLen_nil], fun _ => rfl⟩
    have hidx := chunkFold_idxOk (min chunk_size MAX_CHUNK_CHARS) overlap
      (splitSentences (pyStrip text)) ⟨[], [], 0, 0⟩
      (by simp [idxOk])
    set st := (splitSentences (pyStrip text)).foldl
      (chunkStep (min chunk_size MAX_CHUNK_CHARS) overlap) (⟨[], [], 0, 0⟩ : ChunkSt) with hstdef
    have hlenidx : st.chunks.length = st.chunk_idx := by
      have := congrArg List.length hidx
      simpa using this
    refine ⟨?_, ?_, fun h => absurd h hstrip⟩
    · intro hw ch hch
      have hfold := chunkFold_spec (Nat.min_le_right chunk_size MAX_CHUNK_CHARS) rfl
        (splitSentences (pyStrip text)) (⟨[], [], 0, 0⟩ : ChunkSt) hw
        (fun ch h => absurd h (List.not_mem_nil ch)) hinit
      rw [chunk_text_eq text chunk_size overlap hstrip, ← hstdef] at hch
      by_cases hcur : st.current = []
      · rw [if_pos hcur] at hch
        exact hfold.1 ch hch
      · rw [if_neg hcur] at hch
        rcases List.mem_append.1 hch with h | h
        · exact hfold.1 ch h
        · rcases List.mem_singleton.1 h with rfl
          exact hfold.2.2.2.1
    · unfold idxOk at hidx
      rw [chunk_text_eq text chunk_size overlap hstrip, ← hstdef]
      by_cases hcur : st.current = []
      · rw [if_pos hcur, hidx, hlenidx]
      · rw [if_neg hcur]
        simp [hidx, hlenidx, List.range_succ]

/-- C7 counterexample: a single whitespace-free word of 2001 characters is
returned as one chunk with `char_count = 2001 > MAX_CHUNK_CHARS`, refuting
the claim that every chunk's `char_count` is at most `MAX_CHUNK_CHARS`. -/
theorem chunk_text_ceiling_counterexample :
    chunk_text (List.replicate 2001 'a') 1800 200 = [⟨0, List.replicate 2001 'a', 2001⟩] ∧
    ¬ ∀ ch ∈ chunk_text (List.replicate 2001 'a') 1800 200,
        ch.char_count ≤ MAX_CHUNK_CHARS := by
  have h := @chunk_text_single_long_word 2001 (by norm_num [MAX_CHUNK_CHARS]) 1800 200
  refine ⟨h, fun hall => ?_⟩
  have := hall ⟨0, List.replicate 2001 'a', 2001⟩ (by rw [h]; exact List.mem_singleton.2 rfl)
  norm_num [MAX_CHUNK_CHARS] at this

/-- C7 witness: the amended bound applied to a concrete two-sentence text. -/
theorem chunk_text_bounds_witness :
    (∀ ch ∈ chunk_text "One two. Three four.".toList 1800 200,
      ch.char_count ≤ MAX_CHUNK_CHARS + 200 + 1) ∧
    (chunk_text "One two. Three four.".toList 1800 200).map Chunk.index =
      List.range (chunk_text "One two. Three four.".toList 1800 200).length :=
  ⟨(chunk_text_bounds "One two. Three four.".toList 1800 200).1 (by decide),
   (chunk_text_bounds "One two. Three four.".toList 1800 200).2.1⟩

/-! ### Python dicts of float scores, and Python's stable sort -/

/-- A Python `dict[str, float]`: insertion-ordered key list plus valuation.
`val` is only meaningful on `keys`. -/
structure PyDict where
  keys : List String
  val : String → ℚ

/-- Python `d.get(k, dflt)`. -/
def PyDict.get (d : PyDict) (k : String) (dflt : ℚ) : ℚ :=
  if k ∈ d.keys then d.val k else dflt

/-- Python `d[k] = v`: updates in place, appending `k` to the key order only
when absent. -/
def PyDict.set (d : PyDict) (k : String) (v : ℚ) : PyDict :=
  ⟨if k ∈ d.keys then d.keys else d.keys ++ [k], fun x => if x = k then v else d.val x⟩

/-- The empty Python dict. -/
def emptyDict : PyDict := ⟨[], fun _ => 0⟩

/-- Insertion step of a stable descending sort: place `a` (which originally
precedes everything in the already-sorted list) before the first element whose
key does not exceed `a`'s. -/
def insertDesc (key : String → ℚ) (a : String) : List String → List String
  | [] => [a]
  | b :: bs => if key b ≤ key a then a :: b :: bs else b :: insertDesc key a bs

/-- Python `sorted(l, key=key, reverse=True)`: sort by key descending; tied
elements keep their original relative order (Python's sort is stable). -/
def pySortedDesc (key : String → ℚ) : List String → List String
  | [] => []
  | x :: xs => insertDesc key x (pySortedDesc key xs)

theorem insertDesc_perm (key : String → ℚ) (a : String) :
    ∀ l, (insertDesc key a l).Perm (a :: l) := by
  intro l
  induction l with
  | nil => exact List.Perm.refl _
  | cons b bs ih =>
    by_cases h : key b ≤ key a
    · simp only [insertDesc, if_pos h]
      exact List.Perm.refl _
    · simp only [insertDesc, if_neg h]
      exact (ih.cons b).trans (List.Perm.swap a b bs)

theorem pySortedDesc_perm (key : String → ℚ) :
    ∀ l, (pySortedDesc key l).Perm l := by
  intro l
  induction l with
  | nil => exact List.Perm.refl _
  | cons x xs ih => exact (insertDesc_perm key x (pySortedDesc key xs)).trans (ih.cons x)

theorem mem_pySortedDesc {key : String → ℚ} {l : List String} {x : String} :
    x ∈ pySortedDesc key l ↔ x ∈ l :=
  (pySortedDesc_perm key l).mem_iff

/-! ### Rank fusion (`src/shared/rrf.py`) -/

/-- The score-accumulation loop of `rrf_merge` and `rrf_scores`:
`scores[doc_id] = scores.get(doc_id, 0.0) + 1.0 / (k + rank + 1)` for
`rank, doc_id in enumerate(ids)`, starting at `rank`. -/
def rrfAdd (k : Nat) : PyDict → List String → Nat → PyDict
  | d, [], _ => d
  | d, doc :: docs, rank =>
    rrfAdd k (d.set doc (d.get doc 0 + 1 / ((k : ℚ) + rank + 1))) docs (rank + 1)

/-- `rrf_scores(bm25_ids, ann_ids, k)` from `src/shared/rrf.py` (the debugging
twin of `rrf_merge`, built by the identical loop). -/
def rrf_scores (bm25_ids ann_ids : List String) (k : Nat) : PyDict :=
  rrfAdd k (rrfAdd k emptyDict bm25_ids 0) ann_ids 0

/-- `rrf_merge(bm25_ids, ann_ids, k)` from `src/shared/rrf.py` (Python default
`k=60`): ids sorted by RRF score descending, ties broken by insertion order
into the score map. -/
def rrf_merge (bm25_ids ann_ids : List String) (k : Nat) : List String :=
  pySortedDesc (rrf_scores bm25_ids ann_ids k).val (rrf_scores bm25_ids ann_ids k).keys

/-- The RRF mass an id collects from one ranked list starting at `rank`. -/
def rrfContrib (k : Nat) : List String → Nat → String → ℚ
  | [], _, _ => 0
  | doc :: docs, rank, x =>
    (if x = doc then 1 / ((k : ℚ) + rank + 1) else 0) + rrfContrib k docs (rank + 1) x

theorem PyDict.get_set (d : PyDict) (k : String) (v : ℚ) (x : String) :
    (d.set k v).get x 0 = if x = k then v else d.get x 0 := by
  by_cases hx : x = k
  · subst hx
    simp only [PyDict.get, PyDict.set, if_pos rfl]
    by_cases hk : x ∈ d.keys
    · simp [hk]
    · simp [hk]
  · simp only [PyDict.get, PyDict.set, if_neg hx]
    by_cases hk : k ∈ d.keys
    · simp [hk]
    · simp only [if_neg hk, List.mem_append, List.mem_singleton, hx, or_false]

theorem PyDict.mem_set_keys (d : PyDict) (k : String) (v : ℚ) (x : String) :
    x ∈ (d.set k v).keys ↔ x ∈ d.keys ∨ x = k := by
  by_cases hk : k ∈ d.keys
  · simp only [PyDict.set, if_pos hk]
    constructor
    · exact Or.inl
    · rintro (h | rfl)
      · exact h
      · exact hk
  · simp [PyDict.set, if_neg hk]

theorem PyDict.nodup_set_keys (d : PyDict) (k : String) (v : ℚ)
    (h : d.keys.Nodup) : (d.set k v).keys.Nodup := by
  by_cases hk : k ∈ d.keys
  · simpa only [PyDict.set, if_pos hk] using h
  · simp only [PyDict.set, if_neg hk]
    rw [List.nodup_append]
    refine ⟨h, List.nodup_singleton k, ?_⟩
    intro a ha hb
    rw [List.mem_singleton] at hb
    subst hb
    exact hk ha

theorem rrfAdd_get (k : Nat) :
    ∀ (l : List String) (d : PyDict) (rank : Nat) (x : String),
      (rrfAdd k d l rank).get x 0 = d.get x 0 + rrfContrib k l rank x := by
  intro l
  induction l with
  | nil => intro d rank x; simp [rrfAdd, rrfContrib]
  | cons doc docs ih =>
    intro d rank x
    simp only [rrfAdd, rrfContrib, ih]
    rw [PyDict.get_set]
    by_cases hx : x = doc
    · subst hx
      simp only [eq_self_iff_true, if_true, if_pos rfl]
      ring
    · simp only [if_neg hx]
      ring

theorem rrfAdd_mem_keys (k : Nat) :
    ∀ (l : List String) (d : PyDict) (rank : Nat) (x : String),
      x ∈ (rrfAdd k d l rank).keys ↔ x ∈ d.keys ∨ x ∈ l := by
  intro l
  induction l with
  | nil => intro d rank x; simp [rrfAdd]
  | cons doc docs ih =>
    intro d rank x
    simp only [rrfAdd, ih, PyDict.mem_set_keys, List.mem_cons]
    tauto

theorem rrfAdd_nodup_keys (k : Nat) :
    ∀ (l : List String) (d : PyDict) (rank : Nat),
      d.keys.Nodup → (rrfAdd k d l rank).keys.Nodup := by
  intro l
  induction l with
  | nil => intro d rank h; exact h
  | cons doc docs ih =>
    intro d rank h
    exact ih _ _ (PyDict.nodup_set_keys _ _ _ h)

theorem rrf_scores_mem_keys (A B : List String) (k : Nat) (x : String) :
    x ∈ (rrf_scores A B k).keys ↔ x ∈ A ∨ x ∈ B := by
  simp [rrf_scores, rrfAdd_mem_keys, emptyDict, or_assoc]

theorem rrf_scores_nodup (A B : List String) (k : Nat) :
    (rrf_scores A B k).keys.Nodup :=
  rrfAdd_nodup_keys k B _ 0 (rrfAdd_nodup_keys k A emptyDict 0 List.nodup_nil)

/-- C6 (amended): `rrf_merge(A, B, k)` and `rrf_merge(B, A, k)` are
permutations of one another containing exactly the ids of `A ∪ B`, and the
two score maps agree on every id; they are however not always equal as
ordered lists, because ties are broken by insertion order into the score map
(see `rrf_merge_order_counterexample`). An id absent from both input lists is
absent from the output. -/
theorem rrf_merge_commutative_up_to_ties (A B : List String) (k : Nat) :
    (rrf_merge A B k).Perm (rrf_merge B A k) ∧
    (∀ id, (rrf_scores A B k).get id 0 = (rrf_scores B A k).get id 0) ∧
    (∀ id, id ∉ A → id ∉ B → id ∉ rrf_merge A B k) := by
  refine ⟨?_, ?_, ?_⟩
  · have h1 := pySortedDesc_perm (rrf_scores A B k).val (rrf_scores A B k).keys
    have h2 := pySortedDesc_perm (rrf_scores B A k).val (rrf_scores B A k).keys
    have hkeys : (rrf_scores A B k).keys.Perm (rrf_scores B A k).keys := by
      refine (List.perm_ext_iff_of_nodup (rrf_scores_nodup A B k) (rrf_scores_nodup B A k)).2 ?_
      intro a
      rw [rrf_scores_mem_keys, rrf_scores_mem_keys]
      tauto
    exact (h1.trans hkeys).trans h2.symm
  · intro id
    simp only [rrf_scores, rrfAdd_get]
    have : emptyDict.get id 0 = 0 := by simp [emptyDict, PyDict.get]
    rw [this]
    ring
  · intro id hA hB
    rw [rrf_merge, mem_pySortedDesc, rrf_scores_mem_keys]
    tauto

/-- C6 witness: the amended statement applied at concrete lists, with the
absence hypotheses discharged at the id `"z"`. -/
theorem rrf_merge_commutative_up_to_ties_witness :
    (rrf_merge ["a"] ["b"] 60).Perm (rrf_merge ["b"] ["a"] 60) ∧
    "z" ∉ rrf_merge ["a"] ["b"] 60 :=
  ⟨(rrf_merge_commutative_up_to_ties ["a"] ["b"] 60).1,
   (rrf_merge_commutative_up_to_ties ["a"] ["b"] 60).2.2 "z" (by decide) (by decide)⟩

/-- C6 counterexample: with `A = ["x"]` and `B = ["y"]` both ids tie at score
`1/61`, and the tie is broken by insertion order into the score map, so
`rrf_merge(A, B, 60) = ["x", "y"]` while `rrf_merge(B, A, 60) = ["y", "x"]`:
the two calls are not equal as ordered lists. -/
theorem rrf_merge_order_counterexample :
    rrf_merge ["x"] ["y"] 60 = ["x", "y"] ∧ rrf_merge ["y"] ["x"] 60 = ["y", "x"] ∧
    rrf_merge ["x"] ["y"] 60 ≠ rrf_merge ["y"] ["x"] 60 := by
  have h1 : ¬(("x" : String) = "y") := by decide
  have h2 : ¬(("y" : String) = "x") := by decide
  have e1 : rrf_merge ["x"] ["y"] 60 = ["x", "y"] := by
    norm_num [rrf_merge, rrf_scores, rrfAdd, PyDict.set, PyDict.get, emptyDict, pySortedDesc,
      insertDesc, h1, h2]
  have e2 : rrf_merge ["y"] ["x"] 60 = ["y", "x"] := by
    norm_num [rrf_merge, rrf_scores, rrfAdd, PyDict.set, PyDict.get, emptyDict, pySortedDesc,
      insertDesc, h1, h2]
  refine ⟨e1, e2, ?_⟩
  rw [e1, e2]
  decide

/-! ### Weighted fusion (`src/shared/rrf.py`, `weighted_merge`) -/

/-- Minimum of a list of scores (used on the nonempty `scores.values()`). -/
def listMin : List ℚ → ℚ
  | [] => 0
  | x :: xs => xs.foldl min x

/-- Maximum of a list of scores (used on the nonempty `scores.values()`). -/
def listMax : List ℚ → ℚ
  | [] => 0
  | x :: xs => xs.foldl max x

/-- The inner `_normalise` of `weighted_merge` (rrf.py lines 72-79): min-max
normalise a score dict; an empty dict maps to an empty dict, a constant dict
(`rng == 0`) maps every key to `1.0`, guarding the division. -/
def normalise (d : PyDict) : PyDict :=
  if d.keys = [] then ⟨[], fun _ => 0⟩
  else
    let vals := d.keys.map d.val
    let lo := listMin vals
    let hi := listMax vals
    if hi - lo = 0 then ⟨d.keys, fun _ => 1⟩
    else ⟨d.keys, fun x => (d.val x - lo) / (hi - lo)⟩

/-- The combined score of `weighted_merge`:
`bm25_weight * norm_bm25.get(id, 0.0) + vector_weight * norm_ann.get(id, 0.0)`. -/
def weightedCombined (bm ann : PyDict) (bm25_weight vector_weight : ℚ) : String → ℚ :=
  fun id => bm25_weight * (normalise bm).get id 0 + vector_weight * (normalise ann).get id 0

/-- The id set `set(norm_bm25) | set(norm_ann)` of `weighted_merge`. Python's
set iteration order is implementation-defined; we fix first-occurrence order.
No verified property depends on the resulting tie order. -/
def weightedAllIds (bm ann : PyDict) : List String :=
  (normalise bm).keys ++ ((normalise ann).keys.filter (fun k => k ∉ (normalise bm).keys))

/-- `weighted_merge(bm25_scores, ann_scores, bm25_weight, vector_weight)` from
`src/shared/rrf.py` (Python defaults: both weights `0.5`): ids sorted by the
weighted sum of the min-max-normalised scores, descending. -/
def weighted_merge (bm ann : PyDict) (bm25_weight vector_weight : ℚ) : List String :=
  pySortedDesc (weightedCombined bm ann bm25_weight vector_weight) (weightedAllIds bm ann)

theorem foldl_min_le_init (xs : List ℚ) : ∀ acc, xs.foldl min acc ≤ acc := by
  induction xs with
  | nil => intro acc; exact le_refl acc
  | cons x xs ih =>
    intro acc
    exact le_trans (ih (min acc x)) (min_le_left acc x)

theorem foldl_min_le_mem {y : ℚ} {xs : List ℚ} (hy : y ∈ xs) :
    ∀ acc, xs.foldl min acc ≤ y := by
  induction xs with
  | nil => exact absurd hy (List.not_mem_nil y)
  | cons x xs ih =>
    intro acc
    rcases List.mem_cons.1 hy with rfl | hmem
    · exact le_trans (foldl_min_le_init xs (min acc y)) (min_le_right acc y)
    · exact ih hmem (min acc x)

theorem foldl_max_init_le (xs : List ℚ) : ∀ acc, acc ≤ xs.foldl max acc := by
  induction xs with
  | nil => intro acc; exact le_refl acc
  | cons x xs ih =>
    intro acc
    exact le_trans (le_max_left acc x) (ih (max acc x))

theorem foldl_max_mem_le {y : ℚ} {xs : List ℚ} (hy : y ∈ xs) :
    ∀ acc, y ≤ xs.foldl max acc := by
  induction xs with
  | nil => exact absurd hy (List.not_mem_nil y)
  | cons x xs ih =>
    intro acc
    rcases List.mem_cons.1 hy with rfl | hmem
    · exact le_trans (le_max_right acc y) (foldl_max_init_le xs (max acc y))
    · exact ih hmem (max acc x)

theorem listMin_le_of_mem {y : ℚ} {l : List ℚ} (hy : y ∈ l) : listMin l ≤ y := by
  cases l with
  | nil => exact absurd hy (List.not_mem_nil y)
  | cons x xs =>
    rcases List.mem_cons.1 hy with rfl | hmem
    · exact foldl_min_le_init xs y
    · exact foldl_min_le_mem hmem x

theorem le_listMax_of_mem {y : ℚ} {l : List ℚ} (hy : y ∈ l) : y ≤ listMax l := by
  cases l with
  | nil => exact absurd hy (List.not_mem_nil y)
  | cons x xs =>
    rcases List.mem_cons.1 hy with rfl | hmem
    · exact foldl_max_init_le xs y
    · exact foldl_max_mem_le hmem x

theorem normalise_val_mem_unitInterval (d : PyDict) (x : String) (hx : x ∈ d.keys) :
    0 ≤ (normalise d).val x ∧ (normalise d).val x ≤ 1 := by
  have hne : d.keys ≠ [] := List.ne_nil_of_mem hx
  have hvx : d.val x ∈ d.keys.map d.val := List.mem_map_of_mem d.val hx
  have hlo : listMin (d.keys.map d.val) ≤ d.val x := listMin_le_of_mem hvx
  have hhi : d.val x ≤ listMax (d.keys.map d.val) := le_listMax_of_mem hvx
  by_cases hrng : listMax (d.keys.map d.val) - listMin (d.keys.map d.val) = 0
  · simp only [normalise, if_neg hne, if_pos hrng]
    norm_num
  · simp only [normalise, if_neg hne, if_neg hrng]
    have hpos : 0 < listMax (d.keys.map d.val) - listMin (d.keys.map d.val) := by
      rcases lt_or_eq_of_le (sub_nonneg.2 (le_trans hlo hhi)) with h | h
      · exact h
      · exact absurd h.symm hrng
    constructor
    · exact div_nonneg (sub_nonneg.2 hlo) (le_of_lt hpos)
    · rw [div_le_one hpos]
      have := sub_le_sub_right hhi (listMin (d.keys.map d.val))
      linarith

theorem PyDict.get_mem_unitInterval_of_normalise (d : PyDict) (x : String) :
    0 ≤ (normalise d).get x 0 ∧ (normalise d).get x 0 ≤ 1 := by
  unfold PyDict.get
  by_cases hx : x ∈ (normalise d).keys
  · rw [if_pos hx]
    have hxd : x ∈ d.keys := by
      by_cases hne : d.keys = []
      · simp [normalise, if_pos hne] at hx
      · simp only [normalise, if_neg hne] at hx
        by_cases hrng : listMax (d.keys.map d.val) - listMin (d.keys.map d.val) = 0 <;>
          simpa [hrng] using hx
    exact normalise_val_mem_unitInterval d x hxd
  · rw [if_neg hx]
    norm_num

theorem le_foldl_min {c : ℚ} (xs : List ℚ) :
    ∀ acc, c ≤ acc → (∀ y ∈ xs, c ≤ y) → c ≤ xs.foldl min acc := by
  induction xs with
  | nil => intro acc hacc _; exact hacc
  | cons x xs ih =>
    intro acc hacc h
    exact ih (min acc x) (le_min hacc (h x (List.mem_cons_self x xs)))
      (fun y hy => h y (List.mem_cons_of_mem x hy))

theorem foldl_max_le {c : ℚ} (xs : List ℚ) :
    ∀ acc, acc ≤ c → (∀ y ∈ xs, y ≤ c) → xs.foldl max acc ≤ c := by
  induction xs with
  | nil => intro acc hacc _; exact hacc
  | cons x xs ih =>
    intro acc hacc h
    exact ih (max acc x) (max_le hacc (h x (List.mem_cons_self x xs)))
      (fun y hy => h y (List.mem_cons_of_mem x hy))

theorem listMin_const {l : List ℚ} {c : ℚ} (h : ∀ y ∈ l, y = c) (hne : l ≠ []) :
    listMin l = c := by
  obtain ⟨x, xs, rfl⟩ := List.exists_cons_of_ne_nil hne
  have hx : x = c := h x (List.mem_cons_self x xs)
  apply le_antisymm
  · show xs.foldl min x ≤ c
    calc xs.foldl min x ≤ x := foldl_min_le_init xs x
      _ = c := hx
  · show c ≤ xs.foldl min x
    exact le_foldl_min xs x (le_of_eq hx.symm)
      (fun y hy => le_of_eq (h y (List.mem_cons_of_mem x hy)).symm)

theorem listMax_const {l : List ℚ} {c : ℚ} (h : ∀ y ∈ l, y = c) (hne : l ≠ []) :
    listMax l = c := by
  obtain ⟨x, xs, rfl⟩ := List.exists_cons_of_ne_nil hne
  have hx : x = c := h x (List.mem_cons_self x xs)
  apply le_antisymm
  · show xs.foldl max x ≤ c
    exact foldl_max_le xs x (le_of_eq hx)
      (fun y hy => le_of_eq (h y (List.mem_cons_of_mem x hy)))
  · show c ≤ xs.foldl max x
    calc c = x := hx.symm
      _ ≤ xs.foldl max x := foldl_max_init_le xs x

theorem normalise_const {d : PyDict} {c : ℚ} (h : ∀ x ∈ d.keys, d.val x = c) :
    ∀ x ∈ d.keys, (normalise d).val x = 1 := by
  intro x hx
  have hne : d.keys ≠ [] := List.ne_nil_of_mem hx
  have hmapne : d.keys.map d.val ≠ [] := by
    simp [hne]
  have hvals : ∀ y ∈ d.keys.map d.val, y = c := by
    intro y hy
    rcases List.mem_map.1 hy with ⟨z, hz, rfl⟩
    exact h z hz
  have hcond : listMax (d.keys.map d.val) - listMin (d.keys.map d.val) = 0 := by
    rw [listMin_const hvals hmapne, listMax_const hvals hmapne]
    ring
  simp only [normalise, if_neg hne, if_pos hcond]

/-- C9: when every score of one input list of `weighted_merge` is the same
constant, its min-max range is zero, so `_normalise` takes the guarded branch
and assigns the normalised contribution `1.0` to every id of that list; and
every combined score of the output is the well-defined sum
`w_lex * nb + w_vec * na` with `nb, na ∈ [0, 1]` — the `rng == 0` guard means
no division by zero (the float NaN source) can occur. -/
theorem weighted_merge_constant_side (d other : PyDict) (w1 w2 c : ℚ)
    (hc : ∀ x ∈ d.keys, d.val x = c) :
    (∀ x ∈ d.keys, (normalise d).val x = 1) ∧
    (∀ id ∈ weighted_merge d other w1 w2,
      ∃ nb na, 0 ≤ nb ∧ nb ≤ 1 ∧ 0 ≤ na ∧ na ≤ 1 ∧
        weightedCombined d other w1 w2 id = w1 * nb + w2 * na) := by
  refine ⟨normalise_const hc, ?_⟩
  intro id _
  refine ⟨(normalise d).get id 0, (normalise other).get id 0, ?_, ?_, ?_, ?_, rfl⟩
  · exact (PyDict.get_mem_unitInterval_of_normalise d id).1
  · exact (PyDict.get_mem_unitInterval_of_normalise d id).2
  · exact (PyDict.get_mem_unitInterval_of_normalise other id).1
  · exact (PyDict.get_mem_unitInterval_of_normalise other id).2

/-- C9 witness: the constant-side property applied to concrete dicts: the
lexical side maps both its ids to score `3.0`, so both normalise to `1.0`. -/
theorem weighted_merge_constant_side_witness :
    (normalise ⟨["a", "b"], fun _ => 3⟩).val "a" = 1 ∧
    (normalise ⟨["a", "b"], fun _ => 3⟩).val "b" = 1 :=
  ⟨(weighted_merge_constant_side ⟨["a", "b"], fun _ => 3⟩ ⟨["b"], fun _ => 7⟩ (9/10) (1/10) 3
      (fun x _ => rfl)).1 "a" (by decide),
   (weighted_merge_constant_side ⟨["a", "b"], fun _ => 3⟩ ⟨["b"], fun _ => 7⟩ (9/10) (1/10) 3
      (fun x _ => rfl)).1 "b" (by decide)⟩

/-! ### Embedding worker failure handling (`src/ingest/embedding_worker.py`) -/

/-- Chunk embedding status (`embedding_status` column). -/
inductive ChunkStatus where
  | pending
  | processing
  | done
  | failed
deriving DecidableEq, Repr

/-- One `UPDATE chunks SET embedding_status = %s, retry_count = %s` write-back. -/
structure ChunkUpd where
  id : String
  status : ChunkStatus
  retry_count : Nat
deriving DecidableEq, Repr

/-- `_apply_retry_updates(pool, ids, retry_counts, retry_max)` (embedding_worker.py
lines 230-244): for each claimed id write back `retry_counts[cid]` and status
`failed` when that count has reached `retry_max`, else `pending`. -/
def applyRetryUpdates (ids : List String) (retry_counts : String → Nat) (retry_max : Nat) :
    List ChunkUpd :=
  ids.map (fun cid =>
    ⟨cid, if retry_max ≤ retry_counts cid then ChunkStatus.failed else ChunkStatus.pending,
      retry_counts cid⟩)

/-- `_increment_retries(ids, retry_counts, ...)` (embedding_worker.py lines
218-227): bump every claimed id's in-memory retry count by one. -/
def incrementRetries (ids : List String) (rc : String → Nat) : String → Nat :=
  fun cid => if cid ∈ ids then rc cid + 1 else rc cid

/-- Outcome of the batched `call_ollama_embed`. `httpStatusError` is
`httpx.HTTPStatusError` (raised by `raise_for_status` on a non-2xx response);
`otherError` is any other exception (connection errors, timeouts, ...). -/
inductive EmbedOutcome where
  | success (embeddings : List (List ℚ))
  | httpStatusError (status : Nat) (body : List Char)
  | otherError (msg : String)

/-- Whether `pat` occurs as a contiguous substring. -/
def containsSub (pat : List Char) : List Char → Bool
  | [] => pat.isPrefixOf []
  | c :: cs => pat.isPrefixOf (c :: cs) || containsSub pat cs

/-- Python `s.lower()` (ASCII). -/
def pyLower (l : List Char) : List Char := l.map Char.toLower

/-- `exc.response.status_code == 400 and "context" in exc.response.text.lower()`
(embedding_worker.py lines 130-133). -/
def isContextError (status : Nat) (body : List Char) : Bool :=
  (status == 400) && containsSub "context".toList (pyLower body)

/-- The write-backs of one embedding-worker iteration after the claim, as a
function of the claimed rows `(id, text, retry_count)` and the outcome of the
batch call (embedding_worker.py lines 108-195). `itemOutcome` abstracts the
per-item fallback calls of the batch-overflow branch (`some` = that item's
one-at-a-time call succeeded; `none` = it raised `httpx.HTTPStatusError`).
On batch success every row is set to `done` (its retry count untouched); the
`httpx.HTTPStatusError` branch without batch-overflow calls
`_increment_retries` and then `_apply_retry_updates`; the generic `Exception`
branch (line 186) calls `_apply_retry_updates` alone, without incrementing. -/
def embeddingIterationUpdates (rows : List (String × List Char × Nat)) (retry_max : Nat)
    (outcome : EmbedOutcome) (itemOutcome : String → Option (List ℚ)) : List ChunkUpd :=
  let ids := rows.map (fun r => r.1)
  let retry_counts : String → Nat := fun cid =>
    match rows.find? (fun r => r.1 == cid) with
    | some r => r.2.2
    | none => 0
  match outcome with
  | .success _ => rows.map (fun r => ⟨r.1, ChunkStatus.done, r.2.2⟩)
  | .httpStatusError status body =>
    if isContextError status body ∧ 1 < ids.length then
      rows.map (fun r =>
        match itemOutcome r.1 with
        | some _ => ⟨r.1, ChunkStatus.done, r.2.2⟩
        | none =>
          ⟨r.1,
           if retry_max ≤ retry_counts r.1 + 1 then ChunkStatus.failed else ChunkStatus.pending,
           retry_counts r.1 + 1⟩)
    else
      applyRetryUpdates ids (incrementRetries ids retry_counts) retry_max
  | .otherError _ =>
    applyRetryUpdates ids retry_counts retry_max

/-- C2: on a generic (non-`HTTPStatusError`) failure — e.g. a connection error
while the embedding service is down — the worker writes the claimed chunks
back with their retry counts UNCHANGED (the `except Exception` handler at
line 186 calls `_apply_retry_updates` without `_increment_retries`), so such
a chunk returns to `pending` with the same count forever and never reaches
the `failed` terminal state; only the `HTTPStatusError` branch increments by
one as the claim and the module's own docstring describe. -/
theorem embedding_worker_generic_error_keeps_retry_count :
    embeddingIterationUpdates [("c1", "some text".toList, 0)] 5
        (EmbedOutcome.otherError "ConnectError") (fun _ => none)
      = [⟨"c1", ChunkStatus.pending, 0⟩] ∧
    (∀ (id : String) (text : List Char) (rc retry_max : Nat) (msg : String)
        (item : String → Option (List ℚ)),
      embeddingIterationUpdates [(id, text, rc)] retry_max (EmbedOutcome.otherError msg) item
        = [⟨id, if retry_max ≤ rc then ChunkStatus.failed else ChunkStatus.pending, rc⟩]) ∧
    (∀ (id : String) (text : List Char) (rc retry_max : Nat)
        (item : String → Option (List ℚ)),
      embeddingIterationUpdates [(id, text, rc)] retry_max
          (EmbedOutcome.httpStatusError 500 []) item
        = [⟨id, if retry_max ≤ rc + 1 then ChunkStatus.failed else ChunkStatus.pending,
            rc + 1⟩]) := by
  refine ⟨by decide, ?_, ?_⟩
  · intro id text rc retry_max msg item
    simp [embeddingIterationUpdates, applyRetryUpdates]
  · intro id text rc retry_max item
    simp [embeddingIterationUpdates, applyRetryUpdates, incrementRetries, isContextError]

/-! ### Outbox drainer (`src/ingest/outbox_worker.py`) -/

/-- The mutable columns of one outbox row touched by the drain loop. -/
structure OutboxRow where
  processed_at : Option Nat
  attempts : Nat
  failed : Bool
  error : Option String
deriving DecidableEq, Repr

/-- Outcome of `_apply_outbox_event` against the graph store. -/
inductive GraphApplyOutcome where
  | ok
  | raised (msg : String)
deriving DecidableEq, Repr

/-- `OUTBOX_MAX_ATTEMPTS` (outbox_worker.py line 19). -/
def OUTBOX_MAX_ATTEMPTS : Nat := 10

/-- Processing of one row picked by the drain loop (outbox_worker.py lines
133-182). The `SELECT` only picks rows with `processed_at IS NULL AND NOT
failed`. If `attempts ≥ OUTBOX_MAX_ATTEMPTS` the row is dead-lettered.
Otherwise the row is marked processed first (`processed_at = now, attempts =
attempts + 1`), the event applied, and on an exception the rollback sets
`processed_at = NULL, error = exc, attempts = attempts + 1` — reading the
already-incremented counter, so a failed apply advances `attempts` by two. -/
def outboxProcessRow (now : Nat) (row : OutboxRow) (apply : GraphApplyOutcome) : OutboxRow :=
  if OUTBOX_MAX_ATTEMPTS ≤ row.attempts then
    ⟨row.processed_at, row.attempts, true, some "max attempts exceeded"⟩
  else
    match apply with
    | .ok => ⟨some now, row.attempts + 1, row.failed, row.error⟩
    | .raised msg => ⟨none, row.attempts + 1 + 1, row.failed, some msg⟩

/-- `n` consecutive drain iterations in which the graph apply raises. -/
def outboxFailTimes (now : Nat) (msg : String) : Nat → OutboxRow → OutboxRow
  | 0, row => row
  | n + 1, row => outboxFailTimes now msg n (outboxProcessRow now row (.raised msg))

/-- C3 counterexample: a fresh row (`attempts = 0`) whose apply raises ends the
iteration with `attempts = 2`, not `0 + 1` as the claim states. -/
theorem outbox_attempts_counterexample :
    outboxProcessRow 0 ⟨none, 0, false, none⟩ (GraphApplyOutcome.raised "boom")
      = ⟨none, 2, false, some "boom"⟩ ∧
    ¬ (outboxProcessRow 0 ⟨none, 0, false, none⟩ (GraphApplyOutcome.raised "boom")).attempts
        = 0 + 1 := by
  decide

/-- C3 (amended): a failed graph apply leaves the row with `processed_at =
null`, the error set, and `attempts` exactly TWO greater than before the pick
(the mark-processed step increments once and the rollback increments again);
consequently a fresh row is dead-lettered after 5 failed applies — on the 6th
pick `attempts = 10 = OUTBOX_MAX_ATTEMPTS` and the row is marked failed. -/
theorem outbox_failed_apply_double_increment (row : OutboxRow) (now : Nat) (msg : String)
    (hfailed : row.failed = false) (hatt : row.attempts < OUTBOX_MAX_ATTEMPTS) :
    outboxProcessRow now row (GraphApplyOutcome.raised msg)
      = ⟨none, row.attempts + 2, false, some msg⟩ ∧
    (outboxFailTimes now msg 5 ⟨none, 0, false, none⟩).attempts = OUTBOX_MAX_ATTEMPTS ∧
    (outboxProcessRow now (outboxFailTimes now msg 5 ⟨none, 0, false, none⟩)
        (GraphApplyOutcome.raised msg)).failed = true := by
  refine ⟨?_, ?_, ?_⟩
  · simp only [outboxProcessRow, if_neg (not_le.2 hatt)]
    rw [hfailed]
  · norm_num [outboxFailTimes, outboxProcessRow, OUTBOX_MAX_ATTEMPTS]
  · norm_num [outboxFailTimes, outboxProcessRow, OUTBOX_MAX_ATTEMPTS]

/-- C3 witness: the amended statement at a concrete picked row with
`attempts = 3`: the failed apply leaves `attempts = 5`. -/
theorem outbox_failed_apply_double_increment_witness :
    outboxProcessRow 7 ⟨none, 3, false, none⟩ (GraphApplyOutcome.raised "gone")
      = ⟨none, 5, false, some "gone"⟩ :=
  (outbox_failed_apply_double_increment ⟨none, 3, false, none⟩ 7 "gone" rfl (by decide)).1

/-! ### Watcher pause gate (`src/ingest/watcher.py`) -/

/-- `WATCHED_EXTENSIONS` (watcher.py line 14). -/
def WATCHED_EXTENSIONS : List (List Char) :=
  [".mbox".toList, ".mbx".toList, ".pdf".toList, ".md".toList, ".markdown".toList,
   ".eml".toList]

/-- The `ExtFilter` of the watcher: accept paths ending in a watched extension. -/
def extAccepted (path : List Char) : Bool :=
  WATCHED_EXTENSIONS.any (fun e => e.isSuffixOf path)

/-- The `.pause` sentinel path at the watch root (watcher.py line 43). -/
def pauseSentinel (dropZone : List Char) : List Char := dropZone ++ "/.pause".toList

/-- One batch of filesystem changes delivered by `awatch`, together with
whether the `.pause` sentinel exists at the moment the batch arrives. -/
structure WatchBatch where
  pauseExists : Bool
  changes : List (List Char)
deriving DecidableEq, Repr

/-- One iteration of the `async for changes in awatch(...)` loop (watcher.py
lines 45-56): if `.pause` exists the whole batch is consumed without
dispatching (`continue`); otherwise every changed path that passes the
extension filter — `awatch`'s `ExtFilter`, modelled here — and is not the
sentinel itself is dispatched to `handle_file`. -/
def watchStep (dropZone : List Char) (b : WatchBatch) : List (List Char) :=
  if b.pauseExists then []
  else (b.changes.filter extAccepted).filter (fun p => ¬ p = pauseSentinel dropZone)

/-- All paths dispatched to `handle_file` over a sequence of batches. -/
def watch_drop_zone_dispatches (dropZone : List Char) (batches : List WatchBatch) :
    List (List Char) :=
  (batches.map (watchStep dropZone)).flatten

/-- C4 counterexample: five `.md` files dropped while `.pause` exists produce
one batch that is consumed and discarded; removing `.pause` produces no new
events for them, so after resume the dispatch list is empty — 0 ingests, not
5 as the claim's scenario expects. -/
theorem watcher_pause_counterexample :
    extAccepted "/dz/f1.md".toList = true ∧
    watch_drop_zone_dispatches "/dz".toList
      [⟨true, ["/dz/f1.md".toList, "/dz/f2.md".toList, "/dz/f3.md".toList,
               "/dz/f4.md".toList, "/dz/f5.md".toList]⟩,
       ⟨false, []⟩] = [] ∧
    ¬ "/dz/f1.md".toList ∈ watch_drop_zone_dispatches "/dz".toList
      [⟨true, ["/dz/f1.md".toList, "/dz/f2.md".toList, "/dz/f3.md".toList,
               "/dz/f4.md".toList, "/dz/f5.md".toList]⟩,
       ⟨false, []⟩] := by
  decide

/-- C4 (amended): while `.pause` exists no event is dispatched — a paused
batch contributes nothing, and the dispatched paths are exactly those of the
unpaused batches; events consumed during a pause are discarded rather than
queued, so a file dropped during the pause is only ingested if a new
filesystem event for it arrives after resume. -/
theorem watcher_pause_gate (dropZone : List Char) (batches : List WatchBatch) :
    watch_drop_zone_dispatches dropZone batches =
      ((batches.filter (fun b => !b.pauseExists)).map (watchStep dropZone)).flatten ∧
    ∀ b ∈ batches, b.pauseExists = true → watchStep dropZone b = [] := by
  constructor
  · induction batches with
    | nil => rfl
    | cons b bs ih =>
      by_cases hp : b.pauseExists
      · simp only [watch_drop_zone_dispatches, List.map_cons, List.flatten_cons,
          List.filter_cons, hp, Bool.not_true, watchStep, if_pos hp] at ih ⊢
        simpa using ih
      · simp only [watch_drop_zone_dispatches, List.map_cons, List.flatten_cons,
          List.filter_cons] at ih ⊢
        rw [Bool.eq_false_iff.2 hp]
        simp only [Bool.not_false, if_true, List.map_cons, List.flatten_cons]
        rw [ih]
  · intro b _ hp
    simp [watchStep, hp]

/-- C4 witness: the amended statement at a concrete trace — one paused batch
with a file, one unpaused batch with another file: only the second is
dispatched, and the paused batch dispatches nothing. -/
theorem watcher_pause_gate_witness :
    watch_drop_zone_dispatches "/dz".toList
        [⟨true, ["/dz/a.md".toList]⟩, ⟨false, ["/dz/b.md".toList]⟩]
      = ((([⟨true, ["/dz/a.md".toList]⟩, ⟨false, ["/dz/b.md".toList]⟩] :
          List WatchBatch).filter (fun b => !b.pauseExists)).map
            (watchStep "/dz".toList)).flatten ∧
    watchStep "/dz".toList ⟨true, ["/dz/a.md".toList]⟩ = [] :=
  ⟨(watcher_pause_gate "/dz".toList
      [⟨true, ["/dz/a.md".toList]⟩, ⟨false, ["/dz/b.md".toList]⟩]).1,
   (watcher_pause_gate "/dz".toList
      [⟨true, ["/dz/a.md".toList]⟩, ⟨false, ["/dz/b.md".toList]⟩]).2
     ⟨true, ["/dz/a.md".toList]⟩ (by decide) rfl⟩

/-! ### Entity merge (`src/api/entities.py`, `merge_entities`) -/

/-- A row of the `persons` table (the columns `merge_entities` touches). -/
structure Person where
  id : String
  display_name : String
  email : String
  merged_into : Option String
  deleted_at : Option Nat
deriving DecidableEq, Repr

/-- A `person_merged` outbox insert. -/
structure MergeOutboxEvent where
  event_type : String
  merged_from : String
  merged_into : String
deriving DecidableEq, Repr

/-- The state `merge_entities` reads and writes. -/
structure PersonsDB where
  persons : List Person
  outbox : List MergeOutboxEvent
deriving DecidableEq, Repr

/-- `merge_entities(name_a, name_b)` (entities.py lines 226-255): two
`SELECT ... WHERE display_name = %s AND deleted_at IS NULL LIMIT 1` lookups
(no ORDER BY — modelled as the first match in table order); 404 when either
is missing; then an unconditional `UPDATE persons SET merged_into = id_a
WHERE id = id_b` and a `person_merged` outbox insert. The source person's
existing `merged_into` is never consulted. -/
def merge_entities (db : PersonsDB) (name_a name_b : String) :
    Except Nat (PersonsDB × String × String) :=
  match db.persons.find? (fun p => p.display_name == name_a && p.deleted_at == none),
        db.persons.find? (fun p => p.display_name == name_b && p.deleted_at == none) with
  | some pa, some pb =>
    Except.ok
      (⟨db.persons.map (fun p =>
          if p.id = pb.id then ⟨p.id, p.display_name, p.email, some pa.id, p.deleted_at⟩ else p),
        db.outbox ++ [⟨"person_merged", pb.id, pa.id⟩]⟩, pb.id, pa.id)
  | _, _ => Except.error 404

/-- C5 counterexample: person `Bob` already has `merged_into = "idc"`, yet
`merge_entities` applies the merge — it returns success and overwrites Bob's
`merged_into` with Alice's id instead of rejecting. -/
theorem merge_entities_no_reject_counterexample :
    merge_entities
        ⟨[⟨"ida", "Alice", "a@x.com", none, none⟩,
          ⟨"idb", "Bob", "b@y.com", some "idc", none⟩], []⟩ "Alice" "Bob"
      = Except.ok
          (⟨[⟨"ida", "Alice", "a@x.com", none, none⟩,
             ⟨"idb", "Bob", "b@y.com", some "ida", none⟩],
            [⟨"person_merged", "idb", "ida"⟩]⟩, "idb", "ida") := by
  rfl

/-- C5 (amended): whenever both display-name lookups succeed,
`merge_entities` applies the merge unconditionally: it succeeds and sets the
source person's `merged_into` to the target id, overwriting any previous
value — the operation never rejects a source whose `merged_into` is already
non-null (I6 is not enforced here; only the merge-candidates listing filters
out already-merged persons). -/
theorem merge_entities_applies_unconditionally (db : PersonsDB) (name_a name_b : String)
    (pa pb : Person)
    (ha : db.persons.find? (fun p => p.display_name == name_a && p.deleted_at == none)
      = some pa)
    (hb : db.persons.find? (fun p => p.display_name == name_b && p.deleted_at == none)
      = some pb) :
    merge_entities db name_a name_b =
      Except.ok
        (⟨db.persons.map (fun p =>
            if p.id = pb.id then ⟨p.id, p.display_name, p.email, some pa.id, p.deleted_at⟩
            else p),
          db.outbox ++ [⟨"person_merged", pb.id, pa.id⟩]⟩, pb.id, pa.id) ∧
    ∀ db' from_id into_id,
      merge_entities db name_a name_b = Except.ok (db', from_id, into_id) →
      ∀ p ∈ db'.persons, p.id = pb.id → p.merged_into = some pa.id := by
  have hmain : merge_entities db name_a name_b =
      Except.ok
        (⟨db.persons.map (fun p =>
            if p.id = pb.id then ⟨p.id, p.display_name, p.email, some pa.id, p.deleted_at⟩
            else p),
          db.outbox ++ [⟨"person_merged", pb.id, pa.id⟩]⟩, pb.id, pa.id) := by
    unfold merge_entities
    rw [ha, hb]
  refine ⟨hmain, ?_⟩
  intro db' from_id into_id heq p hp hpid
  rw [hmain] at heq
  rcases Except.ok.inj heq with heq'
  have hdb : db' = ⟨db.persons.map (fun p =>
      if p.id = pb.id then ⟨p.id, p.display_name, p.email, some pa.id, p.deleted_at⟩ else p),
    db.outbox ++ [⟨"person_merged", pb.id, pa.id⟩]⟩ := (congrArg Prod.fst heq').symm
  rw [hdb] at hp
  rcases List.mem_map.1 hp with ⟨q, _, hq⟩
  by_cases hid : q.id = pb.id
  · rw [if_pos hid] at hq
    rw [← hq]
  · rw [if_neg hid] at hq
    rw [← hq] at hpid
    exact absurd hpid hid

/-- C5 witness: the amended statement at a concrete table in which the source
person already carries a non-null `merged_into`. -/
theorem merge_entities_applies_unconditionally_witness :
    merge_entities
        ⟨[⟨"p1", "Carol", "c@x.com", none, none⟩,
          ⟨"p2", "Dave", "d@y.com", some "p9", none⟩], []⟩ "Carol" "Dave"
      = Except.ok
          (⟨[⟨"p1", "Carol", "c@x.com", none, none⟩,
             ⟨"p2", "Dave", "d@y.com", some "p1", none⟩],
            [⟨"person_merged", "p2", "p1"⟩]⟩, "p2", "p1") := by
  have h := (merge_entities_applies_unconditionally
    ⟨[⟨"p1", "Carol", "c@x.com", none, none⟩,
      ⟨"p2", "Dave", "d@y.com", some "p9", none⟩], []⟩ "Carol" "Dave"
    ⟨"p1", "Carol", "c@x.com", none, none⟩
    ⟨"p2", "Dave", "d@y.com", some "p9", none⟩ (by decide) (by decide)).1
  rw [h]
  rfl

/-! ### Hard delete (`src/api/entities.py`, `hard_delete`) -/

/-- A document row (columns `hard_delete` reads). Timestamps are days. -/
structure DocRow where
  id : String
  deleted_at : Option Int
deriving DecidableEq, Repr

/-- A person row (columns `hard_delete` reads). -/
structure PersonRow where
  id : String
  deleted_at : Option Int
deriving DecidableEq, Repr

/-- A chunk row: chunks cascade on document deletion via the FK. -/
structure ChunkRow where
  id : String
  doc_id : String
deriving DecidableEq, Repr

/-- An `entity_hard_deleted` outbox insert. -/
structure HDOutboxEvent where
  event_type : String
  entity_id : String
deriving DecidableEq, Repr

/-- The state `hard_delete` reads and writes. -/
structure EntitiesDB where
  documents : List DocRow
  persons : List PersonRow
  chunks : List ChunkRow
  outbox : List HDOutboxEvent
deriving DecidableEq, Repr

/-- The response body of `POST /entities/hard-delete`. -/
structure HardDeleteResponse where
  deleted_documents : Nat
  deleted_persons : Nat
  deleted_chunks : Nat
  log_path : String
deriving DecidableEq, Repr

/-- SQL `deleted_at < now() - INTERVAL '30 days'` (NULL never matches). -/
def isExpired (now : Int) (deleted_at : Option Int) : Bool :=
  match deleted_at with
  | some t => t < now - 30
  | none => false

/-- `hard_delete(confirm)` (entities.py lines 97-163): 400 without
`confirm=true`; otherwise collect the ids of documents and persons with
`deleted_at < now() - 30 days`, delete those rows (chunks cascade via the
FK), enqueue one `entity_hard_deleted` outbox event per id, and return the
receipt — whose `deleted_chunks` field is set to `deleted_docs`
(entities.py line 161), not to the number of cascaded chunk rows. -/
def hard_delete (db : EntitiesDB) (confirm : Bool) (now : Int) :
    Except Nat (EntitiesDB × HardDeleteResponse) :=
  if ¬ confirm then Except.error 400
  else
    let doc_ids := (db.documents.filter (fun d => isExpired now d.deleted_at)).map DocRow.id
    let person_ids := (db.persons.filter (fun p => isExpired now p.deleted_at)).map PersonRow.id
    Except.ok
      (⟨db.documents.filter (fun d => ¬ isExpired now d.deleted_at),
        db.persons.filter (fun p => ¬ isExpired now p.deleted_at),
        db.chunks.filter (fun c => ¬ c.doc_id ∈ doc_ids),
        db.outbox ++ (doc_ids ++ person_ids).map (fun eid => ⟨"entity_hard_deleted", eid⟩)⟩,
       ⟨doc_ids.length, person_ids.length, doc_ids.length, "./data/deletion_log.jsonl"⟩)

/-- C10: for every database state, `hard_delete` with `confirm=true` reports
`deleted_chunks` equal to `deleted_documents` (the count of deleted document
rows), regardless of how many chunk rows the FK cascade actually removed; the
concrete instance deletes one expired document owning three chunks yet
reports `deleted_chunks = 1`. -/
theorem hard_delete_chunks_equals_documents :
    (∀ (db : EntitiesDB) (now : Int), ∃ db' resp,
      hard_delete db true now = Except.ok (db', resp) ∧
      resp.deleted_chunks = resp.deleted_documents ∧
      resp.deleted_documents =
        ((db.documents.filter (fun d => isExpired now d.deleted_at)).map DocRow.id).length) ∧
    hard_delete ⟨[⟨"d1", some 0⟩], [], [⟨"c1", "d1"⟩, ⟨"c2", "d1"⟩, ⟨"c3", "d1"⟩], []⟩ true 100
      = Except.ok
          (⟨[], [], [], [⟨"entity_hard_deleted", "d1"⟩]⟩,
           ⟨1, 0, 1, "./data/deletion_log.jsonl"⟩) := by
  refine ⟨?_, by rfl⟩
  intro db now
  exact ⟨_, _, rfl, rfl, rfl⟩

/-! ### Ingest coordinator (`src/ingest/db.py` + `src/ingest/main.py`) -/

/-- A row of the `persons` table as written by `ingest_document`. -/
structure IngestPerson where
  id : String
  email : String
  display_name : String
  pii : Bool
deriving DecidableEq, Repr

/-- A row of the `documents` table as written by `ingest_document`. -/
structure IngestDoc where
  id : String
  source_path : String
  source_type : String
  sha256 : String
deriving DecidableEq, Repr

/-- A row of the `chunks` table — `ingest_document` issues no statement
against it. -/
structure IngestChunkRow where
  id : String
  doc_id : String
  status : ChunkStatus
  retry_count : Nat
  pii_detected : Bool
deriving DecidableEq, Repr

/-- A `document_added` outbox insert. -/
structure IngestOutboxEvent where
  event_type : String
  doc_id : String
deriving DecidableEq, Repr

/-- The relational state touched by the ingest transaction. -/
structure IngestDB where
  documents : List IngestDoc
  persons : List IngestPerson
  chunks : List IngestChunkRow
  outbox : List IngestOutboxEvent
deriving DecidableEq, Repr

/-- The keyword-only parameters of `ingest_document` (src/ingest/db.py lines
33-43): `pool` is positional; everything after `*` is keyword-only. -/
def ingestDocumentParams : List String :=
  ["source_path", "source_type", "sha256", "sender_email", "sender_name",
   "recipients", "metadata"]

/-- The keyword arguments `_handle_file` passes to `ingest_document`
(src/ingest/main.py lines 55-66 — the mbox branch; the pdf and markdown
branches pass the same keyword set). -/
def handleFileCallKwargs : List String :=
  ["source_path", "source_type", "sha256", "sender_email", "sender_name",
   "recipients", "metadata", "chunks", "pii_flags"]

/-- Python keyword binding: a call binds iff every keyword it passes is among
the callee's (keyword-only) parameters; otherwise `TypeError` is raised
before the body runs. -/
def pyKwargsAccepted (params call : List String) : Bool :=
  call.all (fun k => params.contains k)

/-- The transaction body of `ingest_document` (db.py lines 51-103): insert the
document row; upsert the sender by email (`ON CONFLICT (email) DO UPDATE SET
display_name = EXCLUDED.display_name`, display name falling back to the email
when empty); insert each recipient (`ON CONFLICT (email) DO NOTHING`); insert
one `document_added` outbox event. The generated UUIDs are abstracted as the
`doc_id`, `sender_id` and `rec_ids` arguments. No statement touches the
`chunks` table. -/
def ingest_document_body (db : IngestDB) (doc_id : String)
    (source_path source_type sha256 sender_email sender_name : String)
    (recipients : List (String × String)) (sender_id : String) (rec_ids : List String) :
    IngestDB × String :=
  let display := if sender_name = "" then sender_email else sender_name
  let persons1 :=
    if db.persons.any (fun p => p.email == sender_email) then
      db.persons.map (fun p =>
        if p.email = sender_email then ⟨p.id, p.email, display, p.pii⟩ else p)
    else db.persons ++ [⟨sender_id, sender_email, display, true⟩]
  let persons2 := (recipients.zip rec_ids).foldl (fun ps r =>
    if ps.any (fun p => p.email == r.1.1) then ps
    else ps ++ [⟨r.2, r.1.1, if r.1.2 = "" then r.1.1 else r.1.2, true⟩]) persons1
  (⟨db.documents ++ [⟨doc_id, source_path, source_type, sha256⟩], persons2, db.chunks,
    db.outbox ++ [⟨"document_added", doc_id⟩]⟩, doc_id)

/-- A Python call to `ingest_document` with keyword set `kwargs`: binding is
checked against the signature first; on a mismatch `TypeError` is raised and
the body never runs. -/
def ingest_document_call (kwargs : List String) (db : IngestDB) (doc_id : String)
    (source_path source_type sha256 sender_email sender_name : String)
    (recipients : List (String × String)) (sender_id : String) (rec_ids : List String) :
    Except String (IngestDB × String) :=
  if pyKwargsAccepted ingestDocumentParams kwargs then
    Except.ok (ingest_document_body db doc_id source_path source_type sha256 sender_email
      sender_name recipients sender_id rec_ids)
  else Except.error "TypeError: unexpected keyword argument"

/-- C2-style evaluation for C1: `ingest_document` does not accept the
`chunks` / `pii_flags` keywords its caller `_handle_file` passes, so every
non-duplicate ingest raises `TypeError` (caught by `_handle_file`'s generic
handler, which dead-letters the file); and the transaction body of
`ingest_document` never inserts a chunk row — the chunks table is unchanged
for every state and arguments. -/
theorem ingest_document_rejects_chunks_kwargs :
    pyKwargsAccepted ingestDocumentParams handleFileCallKwargs = false ∧
    ("chunks" ∈ handleFileCallKwargs ∧ "chunks" ∉ ingestDocumentParams ∧
     "pii_flags" ∈ handleFileCallKwargs ∧ "pii_flags" ∉ ingestDocumentParams) ∧
    (∀ db doc_id sp st sha se sn recips sid rids,
      ingest_document_call handleFileCallKwargs db doc_id sp st sha se sn recips sid rids
        = Except.error "TypeError: unexpected keyword argument") ∧
    (∀ db doc_id sp st sha se sn recips sid rids,
      (ingest_document_body db doc_id sp st sha se sn recips sid rids).1.chunks
        = db.chunks) := by
  refine ⟨by decide, by decide, ?_, ?_⟩
  · intro db doc_id sp st sha se sn recips sid rids
    unfold ingest_document_call
    rw [if_neg]
    rw [show pyKwargsAccepted ingestDocumentParams handleFileCallKwargs = false from by decide]
    exact Bool.false_ne_true
  · intro db doc_id sp st sha se sn recips sid rids
    rfl

/-! ### Reranker gateway (`src/shared/reranker.py`) and search pipeline
(`src/api/search.py`) -/

/-- `rerank(query, candidates)` (reranker.py lines 32-56). `model = none`
covers all three None sources of the source: `sentence_transformers` not
installed, model loading failed, and `model.predict` raising (the
`try/except` returns None). Fewer than 5 candidates also return None. -/
def rerank (model : Option (String → List String → List ℚ))
    (query : String) (candidates : List String) : Option (List ℚ) :=
  if candidates.length < 5 then none
  else
    match model with
    | none => none
    | some f => some (f query candidates)

/-- The per-chunk hydration returned by `_fetch_chunk_details`. -/
structure ChunkDetails where
  text : String
  doc_id : String
  source_path : String
  sender : String
deriving Repr

/-- One element of `SearchResponse.results`. -/
structure SearchResultM where
  chunk_id : String
  doc_id : String
  source_path : String
  sender : String
  snippet : String
  bm25_score : ℚ
  vector_score : ℚ
  rerank_score : ℚ
deriving Repr

/-- `SearchResponse` (search.py lines 65-68). -/
structure SearchResponseM where
  results : List SearchResultM
  degraded : Bool
  query : String
deriving Repr

/-- A dict comprehension `{cid: score for cid, score in pairs}`. -/
def dictOfPairs (l : List (String × ℚ)) : PyDict :=
  l.foldl (fun d p => d.set p.1 p.2) emptyDict

/-- Python truthiness of the `embedding` variable (`if embedding:`): an absent
embedding AND the empty list are both falsy. -/
def pyTruthyEmbedding : Option (List ℚ) → Bool
  | some (_ :: _) => true
  | _ => false

/-- Round-half-to-even of a rational to an integer. -/
def roundHalfEven (q : ℚ) : Int :=
  let f := ⌊q⌋
  if q - f < 1/2 then f
  else if 1/2 < q - f then f + 1
  else if f % 2 = 0 then f else f + 1

/-- Python `round(x, 4)` on exact values (binary-float representation error
aside; no verified property depends on rounded score values). -/
def pyRound4 (q : ℚ) : ℚ := (roundHalfEven (q * 10000) : ℚ) / 10000

/-- `use_weighted = abs(bm25_weight - 0.5) > 0.01 or abs(vector_weight - 0.5)
> 0.01` (search.py line 182). -/
def searchUseWeighted (bm25_weight vector_weight : ℚ) : Bool :=
  decide (1/100 < |bm25_weight - 1/2|) || decide (1/100 < |vector_weight - 1/2|)

/-- The ANN result pairs actually used: empty when the query embedding is
falsy (search.py lines 193-200), in which case `degraded` is set instead. -/
def searchAnnPairs (embedding : Option (List ℚ)) (ann_results : List (String × ℚ)) :
    List (String × ℚ) :=
  if pyTruthyEmbedding embedding then ann_results else []

/-- The fused id list (search.py lines 202-205): weighted fusion when the
weights are non-default and the ANN side is nonempty, else RRF. -/
def searchMergedIds (bm25_weight vector_weight : ℚ) (rrf_k : Nat)
    (bm25_results : List (String × ℚ)) (embedding : Option (List ℚ))
    (ann_results : List (String × ℚ)) : List String :=
  if searchUseWeighted bm25_weight vector_weight ∧
      (dictOfPairs (searchAnnPairs embedding ann_results)).keys ≠ [] then
    weighted_merge (dictOfPairs bm25_results) (dictOfPairs (searchAnnPairs embedding ann_results))
      bm25_weight vector_weight
  else
    rrf_merge (bm25_results.map Prod.fst) ((searchAnnPairs embedding ann_results).map Prod.fst)
      rrf_k

/-- `valid_ids` (search.py lines 206-211): the over-fetched fused top
`5*limit` ids restricted to those the hydrate join returned. -/
def searchValidIds (limit : Nat) (bm25_weight vector_weight : ℚ) (rrf_k : Nat)
    (bm25_results : List (String × ℚ)) (embedding : Option (List ℚ))
    (ann_results : List (String × ℚ)) (details : String → Option ChunkDetails) :
    List String :=
  ((searchMergedIds bm25_weight vector_weight rrf_k bm25_results embedding ann_results).take
    (limit * 5)).filter (fun cid => (details cid).isSome)

/-- `snippets = [details[cid]["text"][:500] for cid in valid_ids]`
(search.py line 214). -/
def searchSnippets (limit : Nat) (bm25_weight vector_weight : ℚ) (rrf_k : Nat)
    (bm25_results : List (String × ℚ)) (embedding : Option (List ℚ))
    (ann_results : List (String × ℚ)) (details : String → Option ChunkDetails) :
    List String :=
  (searchValidIds limit bm25_weight vector_weight rrf_k bm25_results embedding ann_results
    details).map (fun cid => (((details cid).map ChunkDetails.text).getD "").take 500)

/-- One `SearchResult` row (search.py lines 226-239). -/
def searchMkResult (bm25_scores ann_scores rerank_scores : PyDict)
    (details : String → Option ChunkDetails) (cid : String) : SearchResultM :=
  let d := (details cid).getD ⟨"", "", "", ""⟩
  ⟨cid, d.doc_id, d.source_path, d.sender, d.text.take 200,
    pyRound4 (bm25_scores.get cid 0), pyRound4 (ann_scores.get cid 0),
    pyRound4 (rerank_scores.get cid 0)⟩

/-- The post-cache body of `search` (search.py lines 173-254), as a function
of the retrieval results, the hydrate map, and the reranker model. The cache
(`_cache_get`/`_cache_set`) is bypassed: the verified properties concern
searches that reach the reranker, i.e. cache misses. On `rerank = None`
(line 216): rerank scores all `0.0`, `degraded` set only when at least 5
candidates survived hydration, fusion order kept. Otherwise the surviving
ids are re-sorted by rerank score descending (`rerank_scores[cid]`, modelled
with default 0 — `predict` returns one score per candidate). -/
def search_core (q : String) (limit : Nat) (bm25_weight vector_weight : ℚ) (rrf_k : Nat)
    (bm25_results : List (String × ℚ)) (embedding : Option (List ℚ))
    (ann_results : List (String × ℚ)) (details : String → Option ChunkDetails)
    (model : Option (String → List String → List ℚ)) : SearchResponseM :=
  let bm25_scores := dictOfPairs bm25_results
  let ann_scores := dictOfPairs (searchAnnPairs embedding ann_results)
  let degraded0 := !pyTruthyEmbedding embedding
  let valid_ids := searchValidIds limit bm25_weight vector_weight rrf_k bm25_results embedding
    ann_results details
  match rerank model q (searchSnippets limit bm25_weight vector_weight rrf_k bm25_results
      embedding ann_results details) with
  | none =>
    let rerank_scores := valid_ids.foldl (fun d cid => d.set cid 0) emptyDict
    ⟨(valid_ids.take limit).map (searchMkResult bm25_scores ann_scores rerank_scores details),
     degraded0 || decide (5 ≤ valid_ids.length), q⟩
  | some scores =>
    let rerank_scores := dictOfPairs (valid_ids.zip scores)
    let sorted_ids := pySortedDesc (fun cid => rerank_scores.get cid 0) valid_ids
    ⟨(sorted_ids.take limit).map (searchMkResult bm25_scores ann_scores rerank_scores details),
     degraded0, q⟩

/-- C8 (amended): whenever the reranker returns None, the returned results
preserve the fusion order (the hydration-filtered fused ids, truncated to
`limit`); but `degraded` is true exactly when the query embedding was
unavailable or the candidate count is at least 5 — a rerank-None response
with fewer than 5 candidates and a healthy embedding is NOT marked degraded
(search.py lines 216-219 only set the flag under `len(valid_ids) >= 5`). -/
theorem search_rerank_none_preserves_fusion (q : String) (limit : Nat)
    (bm25_weight vector_weight : ℚ) (rrf_k : Nat) (bm25_results : List (String × ℚ))
    (embedding : Option (List ℚ)) (ann_results : List (String × ℚ))
    (details : String → Option ChunkDetails) (model : Option (String → List String → List ℚ))
    (h : rerank model q (searchSnippets limit bm25_weight vector_weight rrf_k bm25_results
      embedding ann_results details) = none) :
    (search_core q limit bm25_weight vector_weight rrf_k bm25_results embedding ann_results
        details model).results.map SearchResultM.chunk_id
      = (searchValidIds limit bm25_weight vector_weight rrf_k bm25_results embedding
          ann_results details).take limit ∧
    (search_core q limit bm25_weight vector_weight rrf_k bm25_results embedding ann_results
        details model).degraded
      = (!pyTruthyEmbedding embedding ||
          decide (5 ≤ (searchValidIds limit bm25_weight vector_weight rrf_k bm25_results
            embedding ann_results details).length)) := by
  constructor
  · simp only [search_core, h, List.map_map]
    rw [List.map_congr_left (fun cid _ => rfl)]
    exact List.map_id _
  · simp only [search_core, h]

theorem rerank_model_unavailable (query : String) (candidates : List String) :
    rerank none query candidates = none := by
  unfold rerank
  by_cases h : candidates.length < 5
  · rw [if_pos h]
  · rw [if_neg h]

/-- The hydrate map of the C8 counterexample: only chunk `c1` exists. -/
def rerankExDetails : String → Option ChunkDetails :=
  fun cid => if cid = "c1" then some ⟨"quarterly budget text", "d1", "/dz/a.md", "al@x.com"⟩
    else none

/-- A loaded cross-encoder model for the C8 counterexample (the model is
available; `rerank` still returns None because of the candidate count). -/
def rerankExModel : String → List String → List ℚ :=
  fun _ cands => cands.map (fun _ => 0)

/-- C8 counterexample: a search with one candidate, a healthy query embedding
and an available model: the reranker returns None (candidate count `1 < 5`),
the fusion order is preserved, but `degraded` is `false` — the claim that
every rerank-None search is marked `degraded=true` is false on the code. -/
theorem search_rerank_none_not_degraded_counterexample :
    rerank (some rerankExModel) "q"
        (searchSnippets 10 (1/2) (1/2) 60 [("c1", 1)] (some [1]) [("c1", 9/10)] rerankExDetails)
      = none ∧
    (search_core "q" 10 (1/2) (1/2) 60 [("c1", 1)] (some [1]) [("c1", 9/10)] rerankExDetails
        (some rerankExModel)).degraded = false ∧
    (search_core "q" 10 (1/2) (1/2) 60 [("c1", 1)] (some [1]) [("c1", 9/10)] rerankExDetails
        (some rerankExModel)).results.map SearchResultM.chunk_id = ["c1"] := by
  have hw : searchUseWeighted (1/2) (1/2) = false := by
    norm_num [searchUseWeighted]
  have hmerged : searchMergedIds (1/2) (1/2) 60 [("c1", 1)] (some [1]) [("c1", 9/10)]
      = ["c1"] := by
    norm_num [searchMergedIds, hw, searchAnnPairs, pyTruthyEmbedding, rrf_merge, rrf_scores,
      rrfAdd, dictOfPairs, emptyDict, PyDict.set, PyDict.get, pySortedDesc, insertDesc]
  have hvalid : searchValidIds 10 (1/2) (1/2) 60 [("c1", 1)] (some [1]) [("c1", 9/10)]
      rerankExDetails = ["c1"] := by
    unfold searchValidIds
    rw [hmerged]
    rfl
  have hsnip : (searchSnippets 10 (1/2) (1/2) 60 [("c1", 1)] (some [1]) [("c1", 9/10)]
      rerankExDetails).length = 1 := by
    unfold searchSnippets
    rw [hvalid]
    rfl
  have hr : rerank (some rerankExModel) "q"
      (searchSnippets 10 (1/2) (1/2) 60 [("c1", 1)] (some [1]) [("c1", 9/10)] rerankExDetails)
      = none := by
    unfold rerank
    rw [if_pos (by rw [hsnip]; norm_num)]
  refine ⟨hr, ?_, ?_⟩
  · simp only [search_core, hr, hvalid, pyTruthyEmbedding]
    norm_num
  · simp only [search_core, hr, hvalid, List.map_map]
    rfl

/-- C8 witness: the amended statement applied to a concrete degenerate search
(no retrieval results, no embedding, no model): the reranker returns None,
the empty fusion order is preserved, and `degraded` is true because the
embedding side failed. -/
theorem search_rerank_none_preserves_fusion_witness :
    (search_core "w" 10 (1/2) (1/2) 60 [] none [] (fun _ => none) none).results.map
        SearchResultM.chunk_id = [] ∧
    (search_core "w" 10 (1/2) (1/2) 60 [] none [] (fun _ => none) none).degraded = true := by
  have h := search_rerank_none_preserves_fusion "w" 10 (1/2) (1/2) 60 [] none []
    (fun _ => none) none (rerank_model_unavailable "w" _)
  have hvalid : searchValidIds 10 (1/2) (1/2) 60 [] none [] (fun _ => none) = [] := by
    unfold searchValidIds
    have hmerged : searchMergedIds (1/2) (1/2) 60 [] none [] = [] := by
      have hw : searchUseWeighted (1/2) (1/2) = false := by
        norm_num [searchUseWeighted]
      norm_num [searchMergedIds, hw, searchAnnPairs, pyTruthyEmbedding, rrf_merge, rrf_scores,
        rrfAdd, dictOfPairs, emptyDict, pySortedDesc]
    rw [hmerged]
    rfl
  constructor
  · rw [h.1, hvalid]
    rfl
  · rw [h.2, hvalid]
    rfl

end Peanut
